import Mathlib

/-!
# Verification of the TWSE/TPEX institutional-investor scraper pipeline

Shallow embedding of the pure core of `src/twse_scraper.py`:

* the per-security history accumulator `update_accumulation_file`,
* the per-security persistence loop of `process_day`,
* the market-table outer-join `merge_dataframes`,
* the CSV source parsers `parse_twse_csv` and `parse_tpex_csv`.

File contents and pandas tables are modelled as explicit Lean data
(lists of rows / list-of-cells tables); machine text is modelled as
`List Char`; numeric cells are modelled as integers (the share-count
fields of the source are integer share counts).  Fallible code paths
(Python exceptions caught by the source's `try/except` blocks) are
modelled with `Option`, with `none` standing for the exception path.
-/

namespace Scraper

open List

/-! ## Accumulator (`update_accumulation_file`, lines 165-178)

A history row is one calendar date plus the rest of the row's content,
which the accumulator never inspects; the payload type is abstract.
Reading a previously written CSV file back (`pd.read_csv` with
`parse_dates=['日期']`) is modelled as the identity on the stored rows. -/

/-- One row of a per-security accumulation (history) file: the `日期`
(date) key column plus the remaining row content. -/
structure ARow (α : Type) where
  date : Int
  payload : α
  deriving DecidableEq, Repr

/-- `df.drop_duplicates(subset=['日期'], keep='last')`: a row is kept iff
no later row carries the same date; kept rows stay in their original
order. -/
def dedupKeepLast {α : Type} : List (ARow α) → List (ARow α)
  | [] => []
  | r :: rest =>
    if rest.any (fun s => s.date == r.date) then dedupKeepLast rest
    else r :: dedupKeepLast rest

/-- The comparison used by `sort_values(by='日期')` (ascending). -/
def dateLe {α : Type} (a b : ARow α) : Prop := a.date ≤ b.date

instance {α : Type} : DecidableRel (@dateLe α) := fun a b => Int.decLe a.date b.date

instance {α : Type} : IsTotal (ARow α) dateLe := ⟨fun a b => Int.le_total a.date b.date⟩

instance {α : Type} : IsTrans (ARow α) dateLe := ⟨fun _ _ _ h h' => le_trans h h'⟩

/-- `combined_df.sort_values(by='日期')`: sorting ascending by date.  The
pandas sort is applied after date-deduplication, so the sort keys are
distinct and any comparison sort yields this result. -/
def sortByDate {α : Type} (l : List (ARow α)) : List (ARow α) :=
  List.insertionSort dateLe l

/-- `update_accumulation_file` (lines 165-178): the state of one
security's accumulation file is `none` (file absent) or `some rows`.
If the file exists its rows are loaded and the new rows appended;
then rows are deduplicated by date (last occurrence wins), sorted
ascending by date, and written back. -/
def update_accumulation_file {α : Type} (file : Option (List (ARow α)))
    (new_data_df : List (ARow α)) : List (ARow α) :=
  let combined_df :=
    match file with
    | some existing_df => existing_df ++ new_data_df
    | none => new_data_df
  sortByDate (dedupKeepLast combined_df)

/-- `combined_df.to_csv(accumulation_file, ...)` writes the merged rows
directly to the accumulation file path (truncating it); no temporary
file and no atomic replace is involved.  If the write is interrupted
after `k` rows, the visible file content is the first `k` rows of the
output. -/
def update_accumulation_file_trunc {α : Type} (file : Option (List (ARow α)))
    (new_data_df : List (ARow α)) (k : Nat) : List (ARow α) :=
  (update_accumulation_file file new_data_df).take k

/-! ### Accumulator lemmas -/

/-- The date-distinctness relation on history rows is symmetric. -/
theorem dateNe_symm {α : Type} :
    Symmetric (fun a b : ARow α => a.date ≠ b.date) :=
  fun _ _ h heq => h heq.symm

theorem dedupKeepLast_sublist {α : Type} :
    ∀ l : List (ARow α), dedupKeepLast l <+ l := by
  intro l
  induction l with
  | nil => simp [dedupKeepLast]
  | cons r rest ih =>
    by_cases h : rest.any (fun s => s.date == r.date)
    · simpa [dedupKeepLast, h] using ih.cons r
    · simpa [dedupKeepLast, h] using ih.cons₂ r

/-- After keep-last date-deduplication, all dates are pairwise distinct. -/
theorem dedupKeepLast_dates_nodup {α : Type} :
    ∀ l : List (ARow α), (dedupKeepLast l).Pairwise (fun a b => a.date ≠ b.date) := by
  intro l
  induction l with
  | nil => simp [dedupKeepLast]
  | cons r rest ih =>
    by_cases h : rest.any (fun s => s.date == r.date)
    · simpa [dedupKeepLast, h] using ih
    · rw [dedupKeepLast, if_neg h]
      refine List.Pairwise.cons ?_ ih
      intro b hb hdb
      apply h
      have hbrest : b ∈ rest := (dedupKeepLast_sublist rest).mem hb
      exact List.any_eq_true.2 ⟨b, hbrest, by simp [hdb]⟩

/-- Appending a fresh row `r` and deduplicating keeps exactly `r` as
the row for `r.date`. -/
theorem dedupKeepLast_append_singleton_filter {α : Type} (r : ARow α) :
    ∀ l : List (ARow α),
      (dedupKeepLast (l ++ [r])).filter (fun s => s.date == r.date) = [r] := by
  intro l
  induction l with
  | nil => simp [dedupKeepLast]
  | cons x rest ih =>
    by_cases hx : (rest ++ [r]).any (fun s => s.date == x.date)
    · simpa [dedupKeepLast, hx] using ih
    · rw [List.cons_append, dedupKeepLast, if_neg hx]
      have hxr : x.date ≠ r.date := by
        intro heq
        exact hx (List.any_eq_true.2 ⟨r, by simp, by simp [heq]⟩)
      rw [List.filter_cons, if_neg (by simp [hxr])]
      exact ih

/-- When the existing rows have pairwise distinct dates, appending a
fresh row and deduplicating removes exactly the old row for that date. -/
theorem dedupKeepLast_append_singleton {α : Type} (r : ARow α) :
    ∀ l : List (ARow α), l.Pairwise (fun a b => a.date ≠ b.date) →
      dedupKeepLast (l ++ [r]) = l.filter (fun s => !(s.date == r.date)) ++ [r] := by
  intro l
  induction l with
  | nil => intro _; simp [dedupKeepLast]
  | cons x rest ih =>
    intro hnd
    rcases List.pairwise_cons.1 hnd with ⟨hx, hrest⟩
    by_cases hxr : x.date = r.date
    · have hany : (rest ++ [r]).any (fun s => s.date == x.date) = true :=
        List.any_eq_true.2 ⟨r, by simp, by simp [hxr]⟩
      rw [List.cons_append, dedupKeepLast, if_pos hany]
      rw [List.filter_cons, if_neg (by simp [hxr])]
      exact ih hrest
    · have hany : (rest ++ [r]).any (fun s => s.date == x.date) = false := by
        rw [List.any_eq_false]
        intro s hs
        rcases List.mem_append.1 hs with hs | hs
        · simpa using (hx s hs).symm
        · have : s = r := by simpa using hs
          subst this
          simpa using fun h => hxr h.symm
      rw [List.cons_append, dedupKeepLast, if_neg (by simp [hany])]
      rw [List.filter_cons, if_pos (by simp [hxr])]
      rw [List.cons_append, ih hrest]

theorem sortByDate_perm {α : Type} (l : List (ARow α)) : sortByDate l ~ l :=
  List.perm_insertionSort dateLe l

theorem sortByDate_sorted {α : Type} (l : List (ARow α)) :
    (sortByDate l).Sorted dateLe :=
  List.sorted_insertionSort dateLe l

/-- Two date-sorted lists with the same rows and pairwise distinct dates
are equal. -/
theorem sorted_nodup_dates_eq {α : Type} {l₁ l₂ : List (ARow α)}
    (hp : l₁ ~ l₂) (hs₁ : l₁.Sorted dateLe) (hs₂ : l₂.Sorted dateLe)
    (hnd : l₁.Pairwise (fun a b => a.date ≠ b.date)) : l₁ = l₂ := by
  have hnd₂ : l₂.Pairwise (fun a b => a.date ≠ b.date) :=
    (hp.pairwise_iff (fun h heq => h heq.symm)).1 hnd
  have hlt₁ : l₁.Sorted (fun a b : ARow α => a.date < b.date) := by
    have := List.Pairwise.and hs₁ hnd
    exact this.imp (fun h => lt_of_le_of_ne h.1 h.2)
  have hlt₂ : l₂.Sorted (fun a b : ARow α => a.date < b.date) := by
    have := List.Pairwise.and hs₂ hnd₂
    exact this.imp (fun h => lt_of_le_of_ne h.1 h.2)
  haveI : IsAntisymm (ARow α) (fun a b : ARow α => a.date < b.date) :=
    ⟨fun a b hab hba => absurd (lt_trans hab hba) (lt_irrefl _)⟩
  exact List.eq_of_perm_of_sorted hp hlt₁ hlt₂

theorem update_dates_nodup {α : Type} (file : Option (List (ARow α)))
    (new_data_df : List (ARow α)) :
    (update_accumulation_file file new_data_df).Pairwise (fun a b => a.date ≠ b.date) := by
  unfold update_accumulation_file
  exact (((sortByDate_perm _).pairwise_iff (fun h heq => h heq.symm)).2 (dedupKeepLast_dates_nodup _))

theorem update_sorted {α : Type} (file : Option (List (ARow α)))
    (new_data_df : List (ARow α)) :
    (update_accumulation_file file new_data_df).Sorted dateLe :=
  sortByDate_sorted _

/-- The single new row always survives into the updated file. -/
theorem update_singleton_filter {α : Type} (file : Option (List (ARow α))) (r : ARow α) :
    (update_accumulation_file file [r]).filter (fun s => s.date == r.date) = [r] := by
  have hbase : ∀ base : List (ARow α),
      (sortByDate (dedupKeepLast (base ++ [r]))).filter (fun s => s.date == r.date) = [r] := by
    intro base
    have h1 := dedupKeepLast_append_singleton_filter r base
    have h2 : (sortByDate (dedupKeepLast (base ++ [r]))).filter (fun s => s.date == r.date)
        ~ (dedupKeepLast (base ++ [r])).filter (fun s => s.date == r.date) :=
      (sortByDate_perm _).filter _
    rw [h1] at h2
    exact List.perm_singleton.1 h2
  rcases file with _ | existing_df
  · simpa [update_accumulation_file] using hbase []
  · simpa [update_accumulation_file] using hbase existing_df

/-- The updated file always contains the new single-date row. -/
theorem update_mem_singleton {α : Type} (file : Option (List (ARow α))) (r : ARow α) :
    r ∈ update_accumulation_file file [r] := by
  have h := update_singleton_filter file r
  have : r ∈ (update_accumulation_file file [r]).filter (fun s => s.date == r.date) := by
    rw [h]; simp
  exact List.mem_of_mem_filter this

/-- Writing the same single-date row a second time reproduces the file
of the first write exactly. -/
theorem update_twice_eq {α : Type} (file : Option (List (ARow α))) (r : ARow α) :
    update_accumulation_file (some (update_accumulation_file file [r])) [r] =
      update_accumulation_file file [r] := by
  set F1 := update_accumulation_file file [r] with hF1
  have hnd : F1.Pairwise (fun a b => a.date ≠ b.date) := update_dates_nodup file [r]
  have hsorted1 : F1.Sorted dateLe := update_sorted file [r]
  have hdedup : dedupKeepLast (F1 ++ [r]) = F1.filter (fun s => !(s.date == r.date)) ++ [r] :=
    dedupKeepLast_append_singleton r F1 hnd
  have hfilter : F1.filter (fun s => s.date == r.date) = [r] := update_singleton_filter file r
  have hperm : update_accumulation_file (some F1) [r] ~ F1 := by
    calc update_accumulation_file (some F1) [r]
        ~ dedupKeepLast (F1 ++ [r]) := sortByDate_perm _
      _ = F1.filter (fun s => !(s.date == r.date)) ++ [r] := hdedup
      _ = F1.filter (fun s => !(s.date == r.date)) ++
            F1.filter (fun s => s.date == r.date) := by rw [hfilter]
      _ ~ F1.filter (fun s => s.date == r.date) ++
            F1.filter (fun s => !(s.date == r.date)) := List.perm_append_comm
      _ ~ F1 := List.filter_append_perm _ F1
  exact sorted_nodup_dates_eq hperm (update_sorted _ _) hsorted1
    (update_dates_nodup (some F1) [r])

/-- Claim C1.  Accumulator idempotence: for every prior state of a
security's HistoryFile and every single-date row, calling
`update_accumulation_file` twice with the same row leaves a file with
exactly one row for that date, sorted ascending by date, identical to
the file obtained after calling it once. -/
theorem accumulator_idempotent {α : Type} (file : Option (List (ARow α))) (r : ARow α) :
    update_accumulation_file (some (update_accumulation_file file [r])) [r] =
        update_accumulation_file file [r] ∧
      ((update_accumulation_file (some (update_accumulation_file file [r])) [r]).filter
          (fun s => s.date == r.date)).length = 1 ∧
      (update_accumulation_file (some (update_accumulation_file file [r])) [r]).Sorted
        dateLe := by
  refine ⟨update_twice_eq file r, ?_, update_sorted _ _⟩
  rw [update_singleton_filter (some (update_accumulation_file file [r])) r]
  rfl

/-- Claim C2.  Accumulator correction (last-write-wins): if the existing
HistoryFile already holds a row for date `r.date`, writing the new row
`r` leaves `r` itself as the one and only row for that date. -/
theorem accumulator_last_write_wins {α : Type} (existing_df : List (ARow α)) (r : ARow α)
    (_hold : ∃ s ∈ existing_df, s.date = r.date) :
    (update_accumulation_file (some existing_df) [r]).filter
        (fun s => s.date == r.date) = [r] ∧
      ∀ s ∈ update_accumulation_file (some existing_df) [r],
        s.date = r.date → s = r := by
  refine ⟨update_singleton_filter (some existing_df) r, ?_⟩
  intro s hs hdate
  have hmem : s ∈ (update_accumulation_file (some existing_df) [r]).filter
      (fun s => s.date == r.date) := List.mem_filter.2 ⟨hs, by simp [hdate]⟩
  rw [update_singleton_filter (some existing_df) r] at hmem
  simpa using hmem

/-- Witness for claim C2 at a concrete input: the stored row for date 5
carried payload 1, the new row carries payload 2, and the final row for
date 5 is the new row. -/
theorem accumulator_last_write_wins_witness :
    (∃ s ∈ [ARow.mk 5 (1 : Int)], s.date = (ARow.mk 5 (2 : Int)).date) ∧
      (update_accumulation_file (some [ARow.mk 5 (1 : Int)]) [ARow.mk 5 (2 : Int)]).filter
          (fun s => s.date == (ARow.mk 5 (2 : Int)).date) = [ARow.mk 5 (2 : Int)] :=
  ⟨⟨ARow.mk 5 1, by simp⟩,
    (accumulator_last_write_wins [ARow.mk 5 (1 : Int)] (ARow.mk 5 (2 : Int))
      ⟨ARow.mk 5 1, by simp⟩).1⟩

/-- Claim C4, counterexample.  The claim says a failure during the
accumulator's write never leaves a partially written HistoryFile
visible (the previous content would be unchanged on error).  In the
code the merged rows are written directly to the accumulation file
path, so an interruption at the very start of the write (0 rows
written) leaves an empty file: different from the previously stored
content and from the completed new content. -/
theorem accumulator_not_atomic_counterexample :
    update_accumulation_file_trunc (some [ARow.mk 1 (10 : Int)]) [ARow.mk 2 (20 : Int)] 0
        = [] ∧
      ([] : List (ARow Int)) ≠ [ARow.mk 1 (10 : Int)] ∧
      ([] : List (ARow Int)) ≠
        update_accumulation_file (some [ARow.mk 1 (10 : Int)]) [ARow.mk 2 (20 : Int)] := by
  refine ⟨rfl, by simp, ?_⟩
  intro h
  have := update_mem_singleton (some [ARow.mk 1 (10 : Int)]) (ARow.mk 2 (20 : Int))
  rw [← h] at this
  simp at this

/-- Claim C4, amended.  `update_accumulation_file` rewrites the
HistoryFile in place (truncate, then write the merged rows): the
content visible after an interrupted write is the first `k` rows of
the new content, and for a non-empty previous file the interruption
at `k = 0` leaves content equal to neither the previous file nor the
completed new file. -/
theorem accumulator_write_not_atomic {α : Type} (existing_df : List (ARow α))
    (new_data_df : List (ARow α)) (r : ARow α) (hne : existing_df ≠ []) :
    (∀ k, update_accumulation_file_trunc (some existing_df) new_data_df k =
        (update_accumulation_file (some existing_df) new_data_df).take k) ∧
      update_accumulation_file_trunc (some existing_df) [r] 0 ≠ existing_df ∧
      update_accumulation_file_trunc (some existing_df) [r] 0 ≠
        update_accumulation_file (some existing_df) [r] := by
  refine ⟨fun _ => rfl, ?_, ?_⟩
  · simpa [update_accumulation_file_trunc] using fun h => hne (Eq.symm h)
  · have hmem := update_mem_singleton (some existing_df) r
    simp only [update_accumulation_file_trunc, List.take_zero]
    intro h
    rw [← h] at hmem
    simp at hmem

/-- Witness for the amended claim C4 at a concrete input. -/
theorem accumulator_write_not_atomic_witness :
    ([ARow.mk 1 (10 : Int)] : List (ARow Int)) ≠ [] ∧
      update_accumulation_file_trunc (some [ARow.mk 1 (10 : Int)]) [ARow.mk 2 (20 : Int)] 0
          ≠ [ARow.mk 1 (10 : Int)] :=
  ⟨by simp,
    (accumulator_write_not_atomic [ARow.mk 1 (10 : Int)] [ARow.mk 2 (20 : Int)]
      (ARow.mk 2 (20 : Int)) (by simp)).2.1⟩

/-! ## Day orchestrator, per-security persistence (`process_day`, lines 210-227)

The filesystem state visible to the persistence loop: for each security
a set of dated DailySnapshotFiles and at most one HistoryFile.  Market
tables are abstracted to the per-security row extraction the loop
performs (`market_df[market_df['證券代號'] == stock_id]`): an emptiness
flag for the whole market table and the list of rows per security. -/

/-- Filesystem state for one run: `snaps stockId dateStr` is the content
of the DailySnapshotFile (if present), `hist stockId` the content of the
accumulation (history) file (if present). -/
structure FState (α : Type) where
  snaps : String → String → Option (List (ARow α))
  hist : String → Option (List (ARow α))

/-- One market's data for one day, as the persistence loop consumes it:
whether the merged market table is empty, and each security's filtered
rows. -/
structure MarketData (α : Type) where
  isEmptyTable : Bool
  rowsFor : String → List (ARow α)

/-- The body of `process_day`'s per-security loop (lines 210-227) for
one `(stock_id, market_type)` entry: choose the market table by market
membership, skip if the market table is empty, skip if the security has
no row, skip if the DailySnapshotFile already exists; otherwise write
the snapshot and update the accumulation file. -/
def process_stock {α : Type} (twse tpex : MarketData α) (dateStr : String)
    (fs : FState α) (entry : String × String) : FState α :=
  let stock_id := entry.1
  let market_df := if entry.2 = "上市" then twse else tpex
  if market_df.isEmptyTable then fs
  else
    let stock_df := market_df.rowsFor stock_id
    if stock_df.isEmpty then fs
    else if (fs.snaps stock_id dateStr).isSome then fs
    else
      { snaps := fun s d =>
          if s = stock_id ∧ d = dateStr then some stock_df else fs.snaps s d,
        hist := fun s =>
          if s = stock_id then some (update_accumulation_file (fs.hist s) stock_df)
          else fs.hist s }

/-- The whole per-security persistence phase of `process_day`: fold the
loop body over the tracked-security map. -/
def process_day_persist {α : Type} (twse tpex : MarketData α) (dateStr : String)
    (stock_map : List (String × String)) (fs : FState α) : FState α :=
  stock_map.foldl (process_stock twse tpex dateStr) fs

/-- One loop iteration never removes a snapshot, and an iteration for a
different security, or for a security whose snapshot already exists,
leaves that security's files untouched. -/
theorem process_stock_frame {α : Type} (twse tpex : MarketData α) (dateStr : String)
    (fs : FState α) (entry : String × String) (s : String)
    (hs : (fs.snaps s dateStr).isSome = true) :
    ((process_stock twse tpex dateStr fs entry).snaps s dateStr).isSome = true ∧
      (∀ d, (process_stock twse tpex dateStr fs entry).snaps s d = fs.snaps s d) ∧
      (process_stock twse tpex dateStr fs entry).hist s = fs.hist s := by
  unfold process_stock
  by_cases hm : (if entry.2 = "上市" then twse else tpex).isEmptyTable
  · simp [hm, hs]
  · by_cases hrows : ((if entry.2 = "上市" then twse else tpex).rowsFor entry.1).isEmpty
    · simp [hm, hrows, hs]
    · by_cases hid : s = entry.1
      · subst hid
        simp [hm, hrows, hs]
      · by_cases hsnap : (fs.snaps entry.1 dateStr).isSome
        · simp [hm, hrows, hsnap, hs]
        · simp [hm, hrows, hsnap, hid, hs]

/-- Claim C3.  Idempotency-guard frame property: if the
DailySnapshotFile for `(s, dateStr)` already exists when the
persistence phase starts, then after the whole phase every snapshot of
`s` and the HistoryFile of `s` are unchanged (in particular the
accumulator is never invoked for `s`). -/
theorem process_day_skip_existing {α : Type} (twse tpex : MarketData α)
    (dateStr : String) (stock_map : List (String × String)) (fs : FState α)
    (s : String) (hs : (fs.snaps s dateStr).isSome = true) :
    (∀ d, (process_day_persist twse tpex dateStr stock_map fs).snaps s d = fs.snaps s d) ∧
      (process_day_persist twse tpex dateStr stock_map fs).hist s = fs.hist s := by
  induction stock_map generalizing fs with
  | nil => exact ⟨fun _ => rfl, rfl⟩
  | cons entry rest ih =>
    have hstep := process_stock_frame twse tpex dateStr fs entry s hs
    have hrest := ih (process_stock twse tpex dateStr fs entry) hstep.1
    have hcons : process_day_persist twse tpex dateStr (entry :: rest) fs =
        process_day_persist twse tpex dateStr rest
          (process_stock twse tpex dateStr fs entry) := rfl
    refine ⟨fun d => ?_, ?_⟩
    · rw [hcons, hrest.1 d, hstep.2.1 d]
    · rw [hcons, hrest.2, hstep.2.2]

/-- Witness for claim C3 at a concrete input: security `2317` already
has a snapshot for the target date, so processing the day changes
neither its snapshots nor its history file. -/
theorem process_day_skip_existing_witness :
    ((FState.mk (α := Int)
        (fun s d => if s = "2317" ∧ d = "2024-01-05" then some [ARow.mk 3 (7 : Int)] else none)
        (fun _ => none)).snaps "2317" "2024-01-05").isSome = true ∧
      (process_day_persist (MarketData.mk false (fun _ => [ARow.mk 3 (7 : Int)]))
          (MarketData.mk false (fun _ => [ARow.mk 3 (8 : Int)])) "2024-01-05"
          [("2317", "上市"), ("2330", "上市")]
          (FState.mk
            (fun s d => if s = "2317" ∧ d = "2024-01-05" then some [ARow.mk 3 (7 : Int)] else none)
            (fun _ => none))).hist "2317" = none := by
  constructor
  · decide
  · have h := process_day_skip_existing (α := Int)
      (MarketData.mk false (fun _ => [ARow.mk 3 (7 : Int)]))
      (MarketData.mk false (fun _ => [ARow.mk 3 (8 : Int)])) "2024-01-05"
      [("2317", "上市"), ("2330", "上市")]
      (FState.mk
        (fun s d => if s = "2317" ∧ d = "2024-01-05" then some [ARow.mk 3 (7 : Int)] else none)
        (fun _ => none))
      "2317" (by decide)
    exact h.2

/-! ## Text helpers shared by the parser and merger models

Python text is modelled as `List Char`.  `pyStrip` models `str.strip()`,
`splitNl` models `str.split('\n')`, `subStr` models Python's
substring-containment test `pat in s`. -/

/-- Characters removed by `str.strip()` (whitespace). -/
def isWS (c : Char) : Bool := c = ' ' || c = '\t' || c = '\n' || c = '\r'

/-- `str.strip()`: drop whitespace from both ends. -/
def pyStrip (l : List Char) : List Char :=
  ((l.dropWhile isWS).reverse.dropWhile isWS).reverse

/-- `str.split('\n')`. -/
def splitNl : List Char → List (List Char)
  | [] => [[]]
  | c :: cs =>
    if c = '\n' then [] :: splitNl cs
    else
      match splitNl cs with
      | [] => [[c]]
      | l :: ls => (c :: l) :: ls

/-- Python's `pat in s` substring test. -/
def subStr (pat : List Char) : List Char → Bool
  | [] => pat.isEmpty
  | c :: rest => pat.isPrefixOf (c :: rest) || subStr pat rest

/-! ## Table merger (`merge_dataframes`, lines 153-163)

A pandas DataFrame is modelled as a list of column names plus a list
of rows; a row is a total function from column names to cell values,
equal to `na` (missing) outside the table's columns.  The pandas
`merge(..., on=['證券代號', '證券名稱'], how='outer')` matches rows on
the two-key pair and pads non-matching sides with missing values.
Suffixing of colliding non-key column names (`_x`/`_y`) is not
modelled; the merger is always invoked by `process_day` on tables with
pairwise distinct non-key columns, and the claims about it assume the
same. -/

/-- A cell value: a string, a number, or missing (`NaN`). -/
inductive MV where
  | s : String → MV
  | n : Int → MV
  | na : MV
  deriving DecidableEq, Repr

/-- A row: a total valuation of column names. -/
abbrev MRow := String → MV

/-- A DataFrame: column names and rows. -/
structure DF where
  cols : List String
  rows : List MRow

/-- The first join key, `證券代號` (security id). -/
def keyId : String := "證券代號"

/-- The second join key, `證券名稱` (security name). -/
def keyName : String := "證券名稱"

def isKeyCol (c : String) : Bool := c == keyId || c == keyName

/-- The non-key columns of a table. -/
def nkCols (A : DF) : List String := A.cols.filter (fun c => !(isKeyCol c))

/-- The join key of a row. -/
def rKey (r : MRow) : MV × MV := (r keyId, r keyName)

/-- An all-missing row (the padding side of an outer join). -/
def naRow : MRow := fun _ => MV.na

/-- A right-only row reduced to its join-key values. -/
def keyOnlyRow (b : MRow) : MRow := fun c => if isKeyCol c then b c else MV.na

/-- Combine a left row `a` (over key columns and `ank`) with a right
row `b` (over `bnk`): right non-key columns read from `b`, left
columns from `a`, all other columns are missing. -/
def cmb (ank bnk : List String) (a b : MRow) : MRow := fun c =>
  if bnk.contains c then b c
  else if ank.contains c then a c
  else if isKeyCol c then a c
  else MV.na

/-- One step of `pd.merge(merged_df, df, on=['證券代號', '證券名稱'],
how='outer')`: each left row pairs with every key-matching right row
(or with a missing-valued row if none matches); right rows with no
key match in the left table are appended, padded with missing values
on the left columns. -/
def mergeTwo (A B : DF) : DF :=
  { cols := A.cols ++ nkCols B,
    rows :=
      (A.rows.flatMap (fun a =>
        let ms := B.rows.filter (fun b => rKey b == rKey a)
        if ms.isEmpty then [cmb (nkCols A) (nkCols B) a naRow]
        else ms.map (fun b => cmb (nkCols A) (nkCols B) a b)))
      ++ ((B.rows.filter (fun b => !(A.rows.any (fun a => rKey a == rKey b)))).map
          (fun b => cmb (nkCols A) (nkCols B) (keyOnlyRow b) b)) }

/-- Does a column name carry the share-count marker `股數`? -/
def hasShareMark (c : String) : Bool := subStr "股數".data c.data

/-- The zero-fill pass (lines 161-162): for every column whose name
contains `股數`, missing values become `0`. -/
def fillRow (cols : List String) (r : MRow) : MRow := fun c =>
  if cols.contains c && hasShareMark c then
    match r c with
    | MV.na => MV.n 0
    | v => v
  else r c

/-- The validity test of line 156: the table carries both join keys. -/
def hasKeysDF (df : DF) : Bool := df.cols.contains keyId && df.cols.contains keyName

/-- `merge_dataframes` (lines 153-163): drop tables missing the join
keys (an empty input list and an all-dropped list both yield the empty
result), outer-join the rest left to right, then zero-fill the missing
values of every share-count column. -/
def merge_dataframes (dfs : List DF) : DF :=
  match dfs.filter hasKeysDF with
  | [] => ⟨[], []⟩
  | v :: vs =>
    let merged_df := vs.foldl mergeTwo v
    ⟨merged_df.cols, merged_df.rows.map (fillRow merged_df.cols)⟩

/-- Claim C5.  Merge zero-fill: in the table returned by
`merge_dataframes`, no cell of a share-count column (a column whose
name contains `股數`) is missing: absent values are zero, never null. -/
theorem merge_share_cols_no_missing (dfs : List DF) (r : MRow) (c : String)
    (hr : r ∈ (merge_dataframes dfs).rows) (hc : c ∈ (merge_dataframes dfs).cols)
    (hshare : hasShareMark c = true) : r c ≠ MV.na := by
  unfold merge_dataframes at hr hc
  rcases hv : dfs.filter hasKeysDF with _ | ⟨v, vs⟩
  · rw [hv] at hr
    simp at hr
  · rw [hv] at hr hc
    simp only [List.mem_map] at hr
    rcases hr with ⟨r₀, _, rfl⟩
    have hcontains : (vs.foldl mergeTwo v).cols.contains c = true := by
      exact List.elem_eq_true_of_mem hc
    unfold fillRow
    rw [hcontains, hshare]
    simp only [Bool.and_self, if_true]
    cases h : r₀ c <;> simp

/-- Witness table for claim C5: one valid table with a missing
share-count cell. -/
def wShareRow : MRow := fun c => if c = "投信_買進股數" then MV.na else MV.s "w"

/-- Witness table for claim C5. -/
def wShareDF : DF := ⟨[keyId, keyName, "投信_買進股數"], [wShareRow]⟩

/-- Witness for claim C5 at a concrete input: the missing share-count
cell of the input becomes non-missing (namely zero) in the merge
result. -/
theorem merge_share_cols_no_missing_witness :
    (fillRow wShareDF.cols wShareRow ∈ (merge_dataframes [wShareDF]).rows ∧
        ("投信_買進股數" : String) ∈ (merge_dataframes [wShareDF]).cols ∧
        hasShareMark "投信_買進股數" = true) ∧
      fillRow wShareDF.cols wShareRow "投信_買進股數" ≠ MV.na := by
  have h1 : fillRow wShareDF.cols wShareRow ∈ (merge_dataframes [wShareDF]).rows := by
    show fillRow wShareDF.cols wShareRow ∈ [fillRow wShareDF.cols wShareRow]
    exact List.mem_singleton.mpr rfl
  have h2 : ("投信_買進股數" : String) ∈ (merge_dataframes [wShareDF]).cols := by
    show ("投信_買進股數" : String) ∈ [keyId, keyName, "投信_買進股數"]
    simp
  have h3 : hasShareMark "投信_買進股數" = true := by decide
  exact ⟨⟨h1, h2, h3⟩,
    merge_share_cols_no_missing [wShareDF] (fillRow wShareDF.cols wShareRow)
      "投信_買進股數" h1 h2 h3⟩

/-! ## Source parsers (`parse_twse_csv` lines 56-119, `parse_tpex_csv` lines 121-151)

A parsed pandas table is a list of header names plus positional rows.
`pd.read_csv` dtype inference is not modelled: cells stay strings until
the source explicitly coerces them with `pd.to_numeric` (share-count
columns), which is modelled as integer parsing (`errors='coerce'`
becomes `na` on failure).  A Python exception anywhere inside the
parser's `try` block is modelled as `none` and mapped to the empty
table by the `except` handler. -/

/-- A parser cell: a string, a coerced number, or missing (`NaN`). -/
inductive PV where
  | s : List Char → PV
  | n : Int → PV
  | na : PV
  deriving DecidableEq, Repr

/-- A parsed table: header names plus positional rows. -/
structure PTable where
  heads : List (List Char)
  rows : List (List PV)
  deriving DecidableEq, Repr

/-- `pd.DataFrame()`: the empty table. -/
def emptyPT : PTable := ⟨[], []⟩

/-- Helper for the CSV field splitter: push a character onto the
current (first) field. -/
def consHead (c : Char) : List (List Char) → List (List Char)
  | [] => [[c]]
  | f :: fs => (c :: f) :: fs

/-- CSV field splitting (`csv.reader` / `pd.read_csv` on one line):
split on commas outside double quotes; quote characters are dropped. -/
def splitFieldsAux : Bool → List Char → List (List Char)
  | _, [] => [[]]
  | q, c :: cs =>
    if c = '"' then splitFieldsAux (!q) cs
    else if c = ',' ∧ q = false then [] :: splitFieldsAux q cs
    else consHead c (splitFieldsAux q cs)

def splitFields (l : List Char) : List (List Char) := splitFieldsAux false l

/-- `pd.read_csv` turns an empty field into `NaN`, anything else into a
string. -/
def cellOfCsv (f : List Char) : PV := if f = [] then PV.na else PV.s f

/-- `pd.read_csv` pads a short row with `NaN` up to the header width. -/
def padTo (len : Nat) (r : List PV) : List PV :=
  r ++ List.replicate (len - r.length) PV.na

/-- `pd.read_csv` over a list of lines: skip blank lines, first
remaining line is the header, rows are padded to the header width;
no lines at all, or a row wider than the header, raises
(`EmptyDataError` / a parser error), modelled as `none`. -/
def readCsv (lines : List (List Char)) : Option PTable :=
  match lines.filter (fun l => !(pyStrip l).isEmpty) with
  | [] => none
  | h :: rest =>
    let heads := splitFields h
    let rawRows := rest.map splitFields
    if rawRows.any (fun r => heads.length < r.length) then none
    else some ⟨heads, rawRows.map (fun r => padTo heads.length (r.map cellOfCsv))⟩

/-- `.str.strip().str.replace('=', '').str.replace('"', '')` on a
header label. -/
def cleanLbl (l : List Char) : List Char :=
  (pyStrip l).filter (fun c => c ≠ '=' ∧ c ≠ '"')

/-- Unique column lookup: `df[name]` fails when the column is absent
(`KeyError`) and the subsequent single-column operations fail when the
label is duplicated, so both cases are `none`. -/
def colIdx (heads : List (List Char)) (name : List Char) : Option Nat :=
  match (List.range heads.length).filter (fun i => heads.getD i [] == name) with
  | [i] => some i
  | _ => none

/-- `astype(str)` on one cell (`NaN` prints as `nan`). -/
def pvStr : PV → List Char
  | PV.s l => l
  | PV.n k => (toString k).data
  | PV.na => "nan".data

/-- Positional cell access; `NaN` beyond the row's width. -/
def getCell (r : List PV) (i : Nat) : PV := r.getD i PV.na

/-- The shared identifier filter of `parse_twse_csv` (lines 108-110):
drop rows whose `證券代號` contains `計`, drop rows with missing
`證券代號`, then strip the identifier. -/
def twseFilter (t : PTable) : Option PTable :=
  match colIdx t.heads "證券代號".data with
  | none => none
  | some i =>
    let rows1 := t.rows.filter (fun r => !(subStr "計".data (pvStr (getCell r i))))
    let rows2 := rows1.filter (fun r => !(getCell r i == PV.na))
    let rows3 := rows2.map (fun r => r.set i (PV.s (pyStrip (pvStr (getCell r i)))))
    some ⟨t.heads, rows3⟩

/-- Digit run to a natural number. -/
def digitsToNat (ds : List Char) : Nat :=
  ds.foldl (fun acc c => acc * 10 + (c.toNat - '0'.toNat)) 0

/-- Integer literal parsing for `pd.to_numeric` (share counts are
integers; a non-integer string coerces to missing). -/
def parseIntChars : List Char → Option Int
  | [] => none
  | '-' :: ds =>
    if ds ≠ [] ∧ ds.all (·.isDigit) then some (-(digitsToNat ds : Int)) else none
  | '+' :: ds =>
    if ds ≠ [] ∧ ds.all (·.isDigit) then some ((digitsToNat ds : Int)) else none
  | c :: ds =>
    if (c :: ds).all (·.isDigit) then some ((digitsToNat (c :: ds) : Int)) else none

/-- `pd.to_numeric(df[col].astype(str).str.replace(',', ''),
errors='coerce')` on one cell. -/
def toNumeric (v : PV) : PV :=
  match parseIntChars (pyStrip ((pvStr v).filter (fun c => c ≠ ','))) with
  | some k => PV.n k
  | none => PV.na

/-- The numeric pass of `parse_twse_csv` (lines 112-114) on one row,
`k` being the index of the first cell: cells of columns whose name
contains `股數` are coerced to numbers. -/
def numRow (heads : List (List Char)) : Nat → List PV → List PV
  | _, [] => []
  | k, v :: vs =>
    (if subStr "股數".data (heads.getD k []) then toNumeric v else v) ::
      numRow heads (k + 1) vs

/-- The numeric pass of `parse_twse_csv` (lines 112-114). -/
def numStep (t : PTable) : PTable := ⟨t.heads, t.rows.map (numRow t.heads 0)⟩

/-- First index in a list of char-lists satisfying a test (Python's
`enumerate`-and-scan idiom). -/
def firstIdx (p : List Char → Bool) : List (List Char) → Option Nat
  | [] => none
  | x :: xs => if p x then some 0 else (firstIdx p xs).map (· + 1)

/-- Header search of `parse_twse_csv` (lines 62-66): the first line
containing both `證券代號` and `證券名稱`. -/
def headerIdxTwse (lines : List (List Char)) : Option Nat :=
  firstIdx (fun l => subStr "證券代號".data l && subStr "證券名稱".data l) lines

/-- The `投信` column renaming (line 73). -/
def toushinRename (h : List Char) : List Char :=
  if h = "買進股數".data then "投信_買進股數".data
  else if h = "賣出股數".data then "投信_賣出股數".data
  else if h = "買賣超股數".data then "投信_買賣超股數".data
  else h

/-- The `投信` branch of `parse_twse_csv` (lines 70-73). -/
def toushinBranch (lines : List (List Char)) (h : Nat) : Option PTable :=
  (readCsv (lines.drop h)).map (fun t =>
    ⟨t.heads.map (fun x => toushinRename (cleanLbl x)), t.rows⟩)

/-- The two-level header construction of `parse_twse_csv` (lines
81-87): walk both header lines in parallel; a blank cleaned group
label inherits the running group label; fails (`IndexError`) when the
second header line is shorter than the first. -/
def buildCols (cur : List Char) :
    List (List Char) → List (List Char) → Option (List (List Char × List Char))
  | [], _ => some []
  | _ :: _, [] => none
  | t :: ts, sc :: ss =>
    let top := cleanLbl t
    let cur' := if top.isEmpty then cur else top
    (buildCols cur' ts ss).map (fun rest => (cur', cleanLbl sc) :: rest)

/-- Unique `(group, sub)` column lookup in the two-level header
(`df_multi[(g, s)]`; an absent key or a duplicated key raises). -/
def pairIdx (cols : List (List Char × List Char)) (k : List Char × List Char) :
    Option Nat :=
  match (List.range cols.length).filter (fun i => cols.getD i ([], []) == k) with
  | [i] => some i
  | _ => none

/-- The `(group, sub)` lookups and output names of the `外資` and
`自營商` branches (lines 93-106), in assignment order. -/
def selColsFor (name : String) : List ((List Char × List Char) × List Char) :=
  [(("證券代號".data, "證券代號".data), "證券代號".data),
   (("證券名稱".data, "證券名稱".data), "證券名稱".data)] ++
  (if name = "外資" then
    [(("外資及陸資".data, "買進股數".data), "外資_買進股數".data),
     (("外資及陸資".data, "賣出股數".data), "外資_賣出股數".data),
     (("外資及陸資".data, "買賣超股數".data), "外資_買賣超股數".data)]
   else
    [(("自營商(自行買賣)".data, "買進股數".data), "自營商_自行買賣_買進股數".data),
     (("自營商(自行買賣)".data, "賣出股數".data), "自營商_自行買賣_賣出股數".data),
     (("自營商(自行買賣)".data, "買賣超股數".data), "自營商_自行買賣_買賣超股數".data),
     (("自營商(避險)".data, "買進股數".data), "自營商_避險_買進股數".data),
     (("自營商(避險)".data, "賣出股數".data), "自營商_避險_賣出股數".data),
     (("自營商(避險)".data, "買賣超股數".data), "自營商_避險_買賣超股數".data)])

/-- The two-level-header branch of `parse_twse_csv` (lines 74-106):
split both header lines into fields, build the flat `(group, sub)`
keys with group forward-fill, take data rows two lines after the
header (a row wider than the header raises), pad short rows with
missing values, and select the output columns by explicit `(group,
sub)` lookup, dropping every other column. -/
def twoLevelAssemble (cols : List (List Char × List Char))
    (dataRows : List (List (List Char))) (name : String) : Option PTable :=
  if dataRows.any (fun r => cols.length < r.length) then none
  else
    match (selColsFor name).mapM (fun k => pairIdx cols k.1) with
    | none => none
    | some idxs =>
      some ⟨(selColsFor name).map (fun p => p.2),
        (dataRows.map (fun r => padTo cols.length (r.map PV.s))).map
          (fun r => idxs.map (fun i => getCell r i))⟩

def twoLevelBranch (lines : List (List Char)) (h : Nat) (name : String) :
    Option PTable :=
  match lines[h]?, lines[h+1]? with
  | some l1, some l2 =>
    match buildCols [] (splitFields l1) (splitFields l2) with
    | none => none
    | some cols => twoLevelAssemble cols ((lines.drop (h+2)).map splitFields) name
  | _, _ => none

/-- `parse_twse_csv` (lines 56-119): keep non-blank lines of the
stripped text, require at least two of them, find the header line,
run the per-source branch (an unknown source name leaves the empty
DataFrame, whose missing `證券代號` column makes the shared filter
raise), then apply the shared identifier filter and the numeric pass;
every failure is caught and returns the empty table. -/
def parse_twse_lines (lines : List (List Char)) (name : String) : PTable :=
  if lines.length < 2 then emptyPT
  else
    match headerIdxTwse lines with
    | none => emptyPT
    | some h =>
      match (if name = "投信" then toushinBranch lines h
             else if name = "外資" ∨ name = "自營商" then twoLevelBranch lines h name
             else some emptyPT) with
      | none => emptyPT
      | some df =>
        match twseFilter df with
        | none => emptyPT
        | some df2 => numStep df2

def parse_twse_csv (csv_content : String) (name : String) : PTable :=
  parse_twse_lines
    ((splitNl (pyStrip csv_content.data)).filter (fun l => !(pyStrip l).isEmpty)) name

/-- Header search of `parse_tpex_csv` (line 126): the first line
containing both `代號` and `名稱`. -/
def headerIdxTpex (lines : List (List Char)) : Option Nat :=
  firstIdx (fun l => subStr "代號".data l && subStr "名稱".data l) lines

/-- The TPEX column renaming (line 134). -/
def tpexRename (h : List Char) : List Char :=
  if h = "代號".data then "證券代號".data
  else if h = "名稱".data then "證券名稱".data
  else h

/-- `columns_to_keep` of `parse_tpex_csv` (lines 136-140). -/
def tpexKeepList : List (List Char) :=
  ["證券代號".data, "證券名稱".data,
   "外資及陸資買進股數".data, "外資及陸資賣出股數".data, "外資及陸資買賣超股數".data,
   "投信買進股數".data, "投信賣出股數".data, "投信買賣超股數".data,
   "自營商(自行買賣)買進股數".data, "自營商(自行買賣)賣出股數".data,
   "自營商(自行買賣)買賣超股數".data, "自營商(避險)買進股數".data,
   "自營商(避險)賣出股數".data, "自營商(避險)買賣超股數".data]

/-- Final column selection of `parse_tpex_csv` (lines 141-148): each
expected column is taken either under its bare name or under the name
with a `(股)` unit suffix, and renamed to the bare name; columns found
neither way are skipped. -/
def tpexSelectCols (heads : List (List Char)) : List (List Char × Nat) :=
  tpexKeepList.foldr (fun base acc =>
    match firstIdx (fun x => x == base) heads with
    | some j => (base, j) :: acc
    | none =>
      match firstIdx (fun x => x == base ++ "(股)".data) heads with
      | some j => (base, j) :: acc
      | none => acc) []

/-- The tail of `parse_tpex_csv` (lines 130-148), applied to the table
read from the header line on: strip the header labels, drop all-missing
rows, drop rows whose `代號` contains `計` or is missing, rename the
key columns, strip the identifier, and select the known columns. -/
def tpexBody (t0 : PTable) : PTable :=
  match colIdx (t0.heads.map pyStrip) "代號".data with
  | none => emptyPT
  | some i =>
    match colIdx ((t0.heads.map pyStrip).map tpexRename) "證券代號".data with
    | none => emptyPT
    | some j =>
      ⟨(tpexSelectCols ((t0.heads.map pyStrip).map tpexRename)).map (fun p => p.1),
        ((((t0.rows.filter (fun r => !(r.all (fun v => v == PV.na)))).filter
              (fun r => !(subStr "計".data (pvStr (getCell r i))))).filter
            (fun r => !(getCell r i == PV.na))).map
          (fun r => r.set j (PV.s (pyStrip (pvStr (getCell r j)))))).map
          (fun r => (tpexSelectCols ((t0.heads.map pyStrip).map tpexRename)).map
            (fun p => getCell r p.2))⟩

def parse_tpex_lines (lines : List (List Char)) : PTable :=
  if lines.length < 2 then emptyPT
  else
    match headerIdxTpex lines with
    | none => emptyPT
    | some h =>
      match readCsv (lines.drop h) with
      | none => emptyPT
      | some t0 => tpexBody t0

def parse_tpex_csv (csv_content : String) : PTable :=
  parse_tpex_lines (splitNl (pyStrip csv_content.data))

/-- The `證券代號` column of a parsed table (empty when the column is
absent or duplicated). -/
def idCells (t : PTable) : List PV :=
  match colIdx t.heads "證券代號".data with
  | some i => t.rows.map (fun r => getCell r i)
  | none => []

/-! ### Text lemmas -/

theorem head_dropWhile_not {p : Char → Bool} :
    ∀ {l : List Char} {c : Char} {rest : List Char},
      l.dropWhile p = c :: rest → p c = false := by
  intro l
  induction l with
  | nil => intro c rest h; simp [List.dropWhile] at h
  | cons a l' ih =>
    intro c rest h
    rw [List.dropWhile_cons] at h
    by_cases hp : p a = true
    · rw [if_pos hp] at h
      exact ih h
    · rw [if_neg hp] at h
      cases h
      simpa using hp

theorem dropWhile_idem {p : Char → Bool} :
    ∀ l : List Char, (l.dropWhile p).dropWhile p = l.dropWhile p := by
  intro l
  cases h : l.dropWhile p with
  | nil => rfl
  | cons c rest =>
    rw [List.dropWhile_cons, if_neg (by simp [head_dropWhile_not h])]

theorem isPrefixOf_append {p l : List Char} (post : List Char) (h : p.isPrefixOf l = true) :
    p.isPrefixOf (l ++ post) = true := by
  induction p generalizing l with
  | nil => simp [List.isPrefixOf]
  | cons a p' ih =>
    cases l with
    | nil => simp [List.isPrefixOf] at h
    | cons b l' =>
      simp only [List.cons_append, List.isPrefixOf, Bool.and_eq_true] at h ⊢
      exact ⟨h.1, ih h.2⟩

theorem subStr_append_right {p l : List Char} (post : List Char)
    (h : subStr p l = true) : subStr p (l ++ post) = true := by
  induction l with
  | nil =>
    simp only [subStr, List.isEmpty_iff] at h
    subst h
    cases post with
    | nil => simp [subStr]
    | cons c cs => simp [subStr, List.isPrefixOf]
  | cons c rest ih =>
    simp only [List.cons_append, subStr, Bool.or_eq_true] at h ⊢
    rcases h with h | h
    · exact Or.inl (by simpa using isPrefixOf_append post (by simpa using h))
    · exact Or.inr (ih h)

theorem subStr_append_left {p l : List Char} (pre : List Char)
    (h : subStr p l = true) : subStr p (pre ++ l) = true := by
  induction pre with
  | nil => simpa using h
  | cons c cs ih =>
    show subStr p (c :: (cs ++ l)) = true
    simp only [subStr, Bool.or_eq_true]
    exact Or.inr ih

/-- The front-stripped text is the stripped text followed by the
trailing whitespace. -/
theorem dropWhile_decomp (l : List Char) :
    l.dropWhile isWS =
      pyStrip l ++ ((l.dropWhile isWS).reverse.takeWhile isWS).reverse := by
  have h2 := List.takeWhile_append_dropWhile isWS (l.dropWhile isWS).reverse
  have h3 := congrArg List.reverse h2
  rw [List.reverse_append, List.reverse_reverse] at h3
  simp only [pyStrip]
  exact h3.symm

/-- `pyStrip l` occurs inside `l`. -/
theorem pyStrip_decomp (l : List Char) :
    ∃ pre post, l = pre ++ (pyStrip l ++ post) := by
  refine ⟨l.takeWhile isWS,
    ((l.dropWhile isWS).reverse.takeWhile isWS).reverse, ?_⟩
  calc l = l.takeWhile isWS ++ l.dropWhile isWS :=
        (List.takeWhile_append_dropWhile isWS l).symm
    _ = l.takeWhile isWS ++
          (pyStrip l ++ ((l.dropWhile isWS).reverse.takeWhile isWS).reverse) :=
        congrArg (l.takeWhile isWS ++ ·) (dropWhile_decomp l)

/-- A pattern found in the stripped text is found in the text. -/
theorem subStr_pyStrip {p l : List Char} (h : subStr p (pyStrip l) = true) :
    subStr p l = true := by
  obtain ⟨pre, post, hl⟩ := pyStrip_decomp l
  rw [hl]
  exact subStr_append_left pre (subStr_append_right post h)

theorem pyStrip_head {l : List Char} {c : Char} {r : List Char}
    (h : pyStrip l = c :: r) : isWS c = false := by
  have hA := dropWhile_decomp l
  rw [h, List.cons_append] at hA
  exact head_dropWhile_not hA

theorem pyStrip_getLast {l : List Char} {c : Char} {r : List Char}
    (h : (pyStrip l).reverse = c :: r) : isWS c = false := by
  have hrev : (pyStrip l).reverse = (l.dropWhile isWS).reverse.dropWhile isWS := by
    simp [pyStrip]
  rw [hrev] at h
  exact head_dropWhile_not h

theorem pyStrip_idem (l : List Char) : pyStrip (pyStrip l) = pyStrip l := by
  have hback : (pyStrip l).reverse.dropWhile isWS = (pyStrip l).reverse := by
    have hrev : (pyStrip l).reverse = (l.dropWhile isWS).reverse.dropWhile isWS := by
      simp [pyStrip]
    rw [hrev]
    exact dropWhile_idem _
  have hfront : (pyStrip l).dropWhile isWS = pyStrip l := by
    cases hs : pyStrip l with
    | nil => rfl
    | cons c rest =>
      rw [List.dropWhile_cons, if_neg (by simp [pyStrip_head hs])]
  show ((((pyStrip l).dropWhile isWS).reverse).dropWhile isWS).reverse = pyStrip l
  rw [hfront, hback, List.reverse_reverse]

/-- The stripped text is empty exactly when the text is all whitespace. -/
theorem pyStrip_eq_nil_iff {l : List Char} :
    pyStrip l = [] ↔ ∀ c ∈ l, isWS c = true := by
  constructor
  · intro h c hc
    rw [← List.takeWhile_append_dropWhile isWS l] at hc
    rcases List.mem_append.1 hc with hc | hc
    · exact List.mem_takeWhile_imp hc
    · rw [dropWhile_decomp l, h, List.nil_append] at hc
      rw [List.mem_reverse] at hc
      exact List.mem_takeWhile_imp hc
  · intro h
    have hA : l.dropWhile isWS = [] := List.dropWhile_eq_nil_iff.2 h
    simp [pyStrip, hA]

/-! ### Table lemmas -/

/-- A successful unique column lookup returns an in-range index holding
the requested name, and every index holding the name equals it. -/
theorem colIdx_spec {heads : List (List Char)} {name : List Char} {i : Nat}
    (h : colIdx heads name = some i) :
    i < heads.length ∧ heads.getD i [] = name ∧
      ∀ k, k < heads.length → heads.getD k [] = name → k = i := by
  unfold colIdx at h
  rcases hf : (List.range heads.length).filter (fun i => heads.getD i [] == name)
    with _ | ⟨j, rest⟩
  · rw [hf] at h; simp at h
  · rcases rest with _ | ⟨j', rest'⟩
    · rw [hf] at h
      have hji : j = i := by simpa using h
      subst hji
      have hj : j ∈ (List.range heads.length).filter
          (fun i => heads.getD i [] == name) := by rw [hf]; simp
      rw [List.mem_filter, List.mem_range] at hj
      refine ⟨hj.1, by simpa using hj.2, ?_⟩
      intro k hk hkn
      have hkmem : k ∈ (List.range heads.length).filter
          (fun i => heads.getD i [] == name) := by
        rw [List.mem_filter, List.mem_range]
        exact ⟨hk, by simpa using hkn⟩
      rw [hf] at hkmem
      simpa using hkmem
    · rw [hf] at h; simp at h

theorem getCell_lt_of_ne_na {r : List PV} {i : Nat} (h : getCell r i ≠ PV.na) :
    i < r.length := by
  by_contra hlt
  exact h (List.getD_eq_default r PV.na (Nat.le_of_not_lt hlt))

theorem getCell_set_self {r : List PV} {i : Nat} (x : PV) (h : i < r.length) :
    getCell (r.set i x) i = x := by
  unfold getCell
  induction r generalizing i with
  | nil => simp at h
  | cons v vs ih =>
    cases i with
    | zero => rfl
    | succ j => exact ih (Nat.lt_of_succ_lt_succ h)

theorem toNumeric_na : toNumeric PV.na = PV.na := by decide

/-- The numeric pass changes a cell exactly when its column name
carries the share-count marker. -/
theorem getCell_numRow (heads : List (List Char)) :
    ∀ (r : List PV) (k i : Nat),
      getCell (numRow heads k r) i =
        if subStr "股數".data (heads.getD (k + i) []) = true
        then toNumeric (getCell r i)
        else getCell r i := by
  intro r
  induction r with
  | nil =>
    intro k i
    by_cases h : subStr "股數".data (heads.getD (k + i) []) = true
    · rw [if_pos h]
      show PV.na = toNumeric PV.na
      rw [toNumeric_na]
    · rw [if_neg h]
      rfl
  | cons v vs ih =>
    intro k i
    cases i with
    | zero =>
      show (if subStr "股數".data (heads.getD k []) = true then toNumeric v else v) = _
      rfl
    | succ j =>
      have h2 := ih (k+1) j
      have harith : k + 1 + j = k + (j + 1) := by omega
      rw [harith] at h2
      exact h2

theorem subStr_share_id : subStr "股數".data "證券代號".data = false := by decide

/-- Unfolding `idCells` under a successful column lookup. -/
theorem idCells_eq {t : PTable} {i : Nat}
    (h : colIdx t.heads "證券代號".data = some i) :
    idCells t = t.rows.map (fun r => getCell r i) := by
  unfold idCells
  rw [h]

/-- The shape of every identifier cell produced by the shared
`parse_twse_csv` filter followed by the numeric pass. -/
theorem idCells_twseFilter_numStep {df df2 : PTable}
    (h : twseFilter df = some df2) :
    ∀ v ∈ idCells (numStep df2),
      ∃ s, v = PV.s s ∧ subStr "計".data s = false ∧ pyStrip s = s := by
  intro v hv
  unfold twseFilter at h
  rcases hci : colIdx df.heads "證券代號".data with _ | i
  · rw [hci] at h; simp at h
  · rw [hci] at h
    have hdf := Option.some.inj h
    obtain ⟨hlt, hname, _⟩ := colIdx_spec hci
    have hheads2 : df2.heads = df.heads := by rw [← hdf]
    have hrows2 : df2.rows = ((df.rows.filter
        (fun r => !(subStr "計".data (pvStr (getCell r i))))).filter
        (fun r => !(getCell r i == PV.na))).map
        (fun r => r.set i (PV.s (pyStrip (pvStr (getCell r i))))) := by rw [← hdf]
    have hci2 : colIdx (numStep df2).heads "證券代號".data = some i := by
      show colIdx df2.heads "證券代號".data = some i
      rw [hheads2]; exact hci
    rw [idCells_eq hci2] at hv
    have hrows3 : (numStep df2).rows = df2.rows.map (numRow df2.heads 0) := rfl
    rw [hrows3, hrows2] at hv
    simp only [List.mem_map] at hv
    obtain ⟨r₀, hr₀, rfl⟩ := hv
    obtain ⟨r₁, hr₁, rfl⟩ := hr₀
    obtain ⟨r, hr, rfl⟩ := hr₁
    rw [List.mem_filter] at hr
    obtain ⟨hr1, hrna⟩ := hr
    rw [List.mem_filter] at hr1
    obtain ⟨_, hrcnt⟩ := hr1
    have hna : getCell r i ≠ PV.na := by
      intro hcontra
      rw [hcontra] at hrna
      simp at hrna
    have hlen : i < r.length := getCell_lt_of_ne_na hna
    have hcell :
        getCell (numRow df2.heads 0 (r.set i (PV.s (pyStrip (pvStr (getCell r i)))))) i =
          getCell (r.set i (PV.s (pyStrip (pvStr (getCell r i))))) i := by
      rw [getCell_numRow]
      rw [Nat.zero_add, hheads2, hname]
      rw [if_neg (by decide)]
    rw [hcell, getCell_set_self _ (by simpa using hlen)]
    refine ⟨pyStrip (pvStr (getCell r i)), rfl, ?_, pyStrip_idem _⟩
    by_contra hsub
    have hsub' : subStr "計".data (pyStrip (pvStr (getCell r i))) = true := by
      simpa using hsub
    have := subStr_pyStrip hsub'
    simp [this] at hrcnt

theorem firstIdx_some {p : List Char → Bool} :
    ∀ {l : List (List Char)} {k : Nat}, firstIdx p l = some k →
      k < l.length ∧ p (l.getD k []) = true := by
  intro l
  induction l with
  | nil => intro k h; simp [firstIdx] at h
  | cons x xs ih =>
    intro k h
    rw [firstIdx] at h
    by_cases hp : p x = true
    · rw [if_pos hp] at h
      have : k = 0 := by simpa using h.symm
      subst this
      exact ⟨Nat.succ_pos _, hp⟩
    · rw [if_neg hp] at h
      rcases hk : firstIdx p xs with _ | k'
      · rw [hk] at h; simp at h
      · rw [hk] at h
        have : k = k' + 1 := by simpa using h.symm
        subst this
        obtain ⟨h1, h2⟩ := ih hk
        exact ⟨Nat.succ_lt_succ h1, h2⟩

theorem firstIdx_eq_none_iff {p : List Char → Bool} {l : List (List Char)} :
    firstIdx p l = none ↔ ∀ x ∈ l, p x = false := by
  induction l with
  | nil => simp [firstIdx]
  | cons x xs ih =>
    rw [firstIdx]
    by_cases hp : p x = true
    · simp [hp]
    · rw [if_neg hp]
      constructor
      · intro h y hy
        rcases List.mem_cons.1 hy with rfl | hy
        · simpa using hp
        · rcases hk : firstIdx p xs with _ | k'
          · exact ih.1 hk y hy
          · rw [hk] at h; simp at h
      · intro h
        have : firstIdx p xs = none := ih.2 (fun y hy => h y (List.mem_cons_of_mem x hy))
        rw [this]; rfl

theorem getD_mem {X : Type} {l : List X} {i : Nat} (d : X) (h : i < l.length) :
    l.getD i d ∈ l := by
  induction l generalizing i with
  | nil => simp at h
  | cons x xs ih =>
    cases i with
    | zero => simp [List.getD]
    | succ j =>
      have := ih (Nat.lt_of_succ_lt_succ h)
      exact List.mem_cons_of_mem x this

theorem getD_map {X Y : Type} (f : X → Y) {l : List X} {i : Nat} (dX : X) (dY : Y)
    (h : i < l.length) : (l.map f).getD i dY = f (l.getD i dX) := by
  induction l generalizing i with
  | nil => simp at h
  | cons x xs ih =>
    cases i with
    | zero => rfl
    | succ j => exact ih (Nat.lt_of_succ_lt_succ h)

/-- Every selected TPEX output column comes from an expected base name,
found either bare or with the `(股)` suffix. -/
theorem mem_tpexSelectCols {heads : List (List Char)} {q : List Char × Nat}
    (h : q ∈ tpexSelectCols heads) :
    q.1 ∈ tpexKeepList ∧
      ((firstIdx (fun x => x == q.1) heads = some q.2) ∨
        (firstIdx (fun x => x == q.1) heads = none ∧
          firstIdx (fun x => x == q.1 ++ "(股)".data) heads = some q.2)) := by
  unfold tpexSelectCols at h
  have main : ∀ bases : List (List Char),
      q ∈ bases.foldr (fun base acc =>
        match firstIdx (fun x => x == base) heads with
        | some j => (base, j) :: acc
        | none =>
          match firstIdx (fun x => x == base ++ "(股)".data) heads with
          | some j => (base, j) :: acc
          | none => acc) [] →
      q.1 ∈ bases ∧
        ((firstIdx (fun x => x == q.1) heads = some q.2) ∨
          (firstIdx (fun x => x == q.1) heads = none ∧
            firstIdx (fun x => x == q.1 ++ "(股)".data) heads = some q.2)) := by
    intro bases
    induction bases with
    | nil => intro hq; simp at hq
    | cons b bs ih =>
      intro hq
      rw [List.foldr_cons] at hq
      rcases h1 : firstIdx (fun x => x == b) heads with _ | j
      · rcases h2 : firstIdx (fun x => x == b ++ "(股)".data) heads with _ | j
        · rw [h1, h2] at hq
          obtain ⟨hmem, hrest⟩ := ih hq
          exact ⟨List.mem_cons_of_mem b hmem, hrest⟩
        · rw [h1, h2] at hq
          rcases List.mem_cons.1 hq with rfl | hq
          · exact ⟨List.mem_cons_self b bs, Or.inr ⟨h1, h2⟩⟩
          · obtain ⟨hmem, hrest⟩ := ih hq
            exact ⟨List.mem_cons_of_mem b hmem, hrest⟩
      · rw [h1] at hq
        rcases List.mem_cons.1 hq with rfl | hq
        · exact ⟨List.mem_cons_self b bs, Or.inl h1⟩
        · obtain ⟨hmem, hrest⟩ := ih hq
          exact ⟨List.mem_cons_of_mem b hmem, hrest⟩
  exact main tpexKeepList h

theorem idCells_empty : idCells emptyPT = [] := rfl

theorem tpexRename_id : tpexRename "代號".data = "證券代號".data := by decide

/-- The shape of every identifier cell of the final TPEX table. -/
theorem tpexFinal_ids {heads1 : List (List Char)} {rows3 : List (List PV)} {i j : Nat}
    (hci : colIdx heads1 "代號".data = some i)
    (hcj : colIdx (heads1.map tpexRename) "證券代號".data = some j)
    (hna : ∀ r ∈ rows3, ¬ getCell r i = PV.na)
    (hcnt : ∀ r ∈ rows3, subStr "計".data (pvStr (getCell r i)) = false) :
    ∀ v ∈ idCells ⟨(tpexSelectCols (heads1.map tpexRename)).map (fun p => p.1),
        (rows3.map (fun r => r.set j (PV.s (pyStrip (pvStr (getCell r j)))))).map
          (fun r => (tpexSelectCols (heads1.map tpexRename)).map (fun p => getCell r p.2))⟩,
      ∃ s, v = PV.s s ∧ subStr "計".data s = false ∧ pyStrip s = s := by
  intro v hv
  obtain ⟨hilt, hiname, _⟩ := colIdx_spec hci
  obtain ⟨hjlt, hjname, hjuniq⟩ := colIdx_spec hcj
  have hij : i = j := by
    refine hjuniq i (by simpa using hilt) ?_
    rw [getD_map tpexRename [] [] hilt, hiname, tpexRename_id]
  subst hij
  set heads2 := heads1.map tpexRename with hheads2
  set sel := tpexSelectCols heads2 with hsel
  rcases hci0 : colIdx (sel.map (fun p => p.1)) "證券代號".data with _ | i₀
  · unfold idCells at hv
    rw [hci0] at hv
    simp at hv
  · obtain ⟨hi0lt, hi0name, _⟩ := colIdx_spec hci0
    have hi0lt' : i₀ < sel.length := by simpa using hi0lt
    have hq1 : (sel.getD i₀ ([], 0)).1 = "證券代號".data := by
      rw [← getD_map (fun p => p.1) ([], 0) [] hi0lt']
      exact hi0name
    have hqmem : sel.getD i₀ ([], 0) ∈ sel := getD_mem ([], 0) hi0lt'
    have hq2 : (sel.getD i₀ ([], 0)).2 = i := by
      obtain ⟨_, hcase⟩ := mem_tpexSelectCols hqmem
      rw [hq1] at hcase
      rcases hcase with hcase | ⟨hnone, _⟩
      · obtain ⟨hqlt, hqval⟩ := firstIdx_some hcase
        refine hjuniq _ hqlt (by simpa using hqval)
      · exfalso
        have hmem : heads2.getD i [] ∈ heads2 := getD_mem [] hjlt
        have := firstIdx_eq_none_iff.1 hnone _ hmem
        rw [hjname] at this
        simp at this
    rw [idCells_eq hci0] at hv
    simp only [List.mem_map] at hv
    obtain ⟨row, hrow, rfl⟩ := hv
    obtain ⟨r4, hr4, rfl⟩ := hrow
    obtain ⟨r, hr, rfl⟩ := hr4
    have hnar := hna r hr
    have hlen : i < r.length := getCell_lt_of_ne_na hnar
    have hcell : getCell ((sel.map
        (fun p => getCell (r.set i (PV.s (pyStrip (pvStr (getCell r i))))) p.2))) i₀ =
        getCell (r.set i (PV.s (pyStrip (pvStr (getCell r i)))))
          (sel.getD i₀ ([], 0)).2 := by
      unfold getCell
      exact getD_map _ ([], 0) PV.na hi0lt'
    rw [hcell, hq2, getCell_set_self _ (by simpa using hlen)]
    refine ⟨pyStrip (pvStr (getCell r i)), rfl, ?_, pyStrip_idem _⟩
    by_contra hsub
    have hsub' : subStr "計".data (pyStrip (pvStr (getCell r i))) = true := by
      simpa using hsub
    have := subStr_pyStrip hsub'
    rw [hcnt r hr] at this
    simp at this


/-- Identifier shape for every `parse_twse_csv` result. -/
theorem parse_twse_ids (csv_content name : String) :
    ∀ v ∈ idCells (parse_twse_csv csv_content name),
      ∃ s, v = PV.s s ∧ subStr "計".data s = false ∧ pyStrip s = s := by
  intro v hv
  unfold parse_twse_csv parse_twse_lines at hv
  split at hv
  · rw [idCells_empty] at hv
    simp at hv
  · split at hv
    · rw [idCells_empty] at hv
      simp at hv
    · split at hv
      · rw [idCells_empty] at hv
        simp at hv
      · split at hv
        · rw [idCells_empty] at hv
          simp at hv
        · rename_i heq
          exact idCells_twseFilter_numStep heq v hv

/-- Identifier shape for every `parse_tpex_csv` result. -/
theorem parse_tpex_ids (csv_content : String) :
    ∀ v ∈ idCells (parse_tpex_csv csv_content),
      ∃ s, v = PV.s s ∧ subStr "計".data s = false ∧ pyStrip s = s := by
  intro v hv
  unfold parse_tpex_csv parse_tpex_lines at hv
  split at hv
  · rw [idCells_empty] at hv; simp at hv
  · split at hv
    · rw [idCells_empty] at hv; simp at hv
    · split at hv
      · rw [idCells_empty] at hv; simp at hv
      · rename_i t0 heqread
        unfold tpexBody at hv
        split at hv
        · rw [idCells_empty] at hv; simp at hv
        · split at hv
          · rw [idCells_empty] at hv; simp at hv
          · rename_i xs1 ival hci xs2 j hcj
            refine tpexFinal_ids hci hcj ?_ ?_ v hv
            · intro r hr
              rw [List.mem_filter] at hr
              intro hcontra
              rw [hcontra] at hr
              simp at hr
            · intro r hr
              rw [List.mem_filter] at hr
              obtain ⟨hr2, _⟩ := hr
              rw [List.mem_filter] at hr2
              obtain ⟨_, hcnt⟩ := hr2
              simpa using hcnt

/-- Claim C7, counterexample.  The claim says no parsed row has a blank
identifier after trimming.  A row whose `證券代號` field is a single
space is not missing (`read_csv` keeps it as the string `" "`), does
not contain `計`, so it survives both row filters, and the final
`.str.strip()` turns it into the empty string: the output holds
exactly one row, whose identifier is blank. -/
theorem parser_blank_id_counterexample :
    idCells (parse_twse_csv "證券代號,證券名稱\n ,X" "投信") = [PV.s []] ∧
      (pyStrip []).isEmpty = true := by
  constructor
  · rfl
  · rfl

/-- Claim C7, amended.  Every identifier cell produced by
`parse_twse_csv` (any source kind) or `parse_tpex_csv` is a present
(non-missing) string that does not contain the aggregate marker `計`
and is exactly its own trimmed form; a whitespace-only input
identifier, however, yields the empty (blank) string rather than
being discarded. -/
theorem parser_ids_trimmed_no_aggregate (csv_content name : String) :
    (∀ v ∈ idCells (parse_twse_csv csv_content name),
        ∃ s, v = PV.s s ∧ subStr "計".data s = false ∧ pyStrip s = s) ∧
      (∀ v ∈ idCells (parse_tpex_csv csv_content),
        ∃ s, v = PV.s s ∧ subStr "計".data s = false ∧ pyStrip s = s) :=
  ⟨parse_twse_ids csv_content name, parse_tpex_ids csv_content⟩

/-- Witness for the amended claim C7 at a concrete input. -/
theorem parser_ids_trimmed_no_aggregate_witness :
    (PV.s "2330".data ∈
        idCells (parse_twse_csv "證券代號,證券名稱\n2330,台積電" "投信")) ∧
      (∃ s, PV.s "2330".data = PV.s s ∧ subStr "計".data s = false ∧
        pyStrip s = s) := by
  have hmem : PV.s "2330".data ∈
      idCells (parse_twse_csv "證券代號,證券名稱\n2330,台積電" "投信") := by
    decide
  exact ⟨hmem,
    (parser_ids_trimmed_no_aggregate "證券代號,證券名稱\n2330,台積電" "投信").1
      (PV.s "2330".data) hmem⟩

/-- Claim C10.  For a source name other than `投信`, `外資` and
`自營商` the branch dispatch leaves the fresh empty DataFrame in
place, the shared filter block then fails on the missing `證券代號`
column, and the handler returns the empty table; `parse_twse_csv` is a
total function of its text input. -/
theorem parse_twse_unknown_source (csv_content name : String)
    (h1 : name ≠ "投信") (h2 : name ≠ "外資") (h3 : name ≠ "自營商") :
    parse_twse_csv csv_content name = emptyPT := by
  unfold parse_twse_csv parse_twse_lines
  split
  · rfl
  · split
    · rfl
    · rw [if_neg (show ¬(name = "外資" ∨ name = "自營商") by simp [h2, h3])]
      rfl

/-- Witness for claim C10 at a concrete input. -/
theorem parse_twse_unknown_source_witness :
    ("外本" : String) ≠ "投信" ∧
      parse_twse_csv "證券代號,證券名稱\n2330,台積電" "外本" = emptyPT :=
  ⟨by decide,
    parse_twse_unknown_source "證券代號,證券名稱\n2330,台積電" "外本"
      (by decide) (by decide) (by decide)⟩

/-! ### Edge-case lemmas for the empty-not-error policy (claim C8) -/

theorem splitNl_ne_nil : ∀ s : List Char, splitNl s ≠ [] := by
  intro s
  cases s with
  | nil => simp [splitNl]
  | cons c cs =>
    rw [splitNl]
    by_cases h : c = '\n'
    · simp [h]
    · rw [if_neg h]
      cases splitNl cs <;> simp

/-- Last element of a list with a default. -/
def lastEl {X : Type} (d : X) : List X → X
  | [] => d
  | x :: xs => if xs.isEmpty then x else lastEl d xs

theorem lastEl_mem {X : Type} (d : X) :
    ∀ {L : List X}, L ≠ [] → lastEl d L ∈ L := by
  intro L
  induction L with
  | nil => intro h; simp at h
  | cons x xs ih =>
    intro _
    rw [lastEl]
    cases xs with
    | nil => simp
    | cons y ys =>
      rw [if_neg (by simp)]
      exact List.mem_cons_of_mem x (ih (by simp))

theorem lastEl_cons_ne {X : Type} (d : X) (x : X) {xs : List X} (h : xs ≠ []) :
    lastEl d (x :: xs) = lastEl d xs := by
  rw [lastEl, if_neg (by simpa using h)]

/-- A list of length at least two whose first and last elements satisfy
`p` has at least two elements satisfying `p`. -/
theorem filter_first_last {X : Type} (p : X → Bool) (d : X) :
    ∀ L : List X, 2 ≤ L.length → p (L.headD d) = true → p (lastEl d L) = true →
      2 ≤ (L.filter p).length := by
  intro L
  cases L with
  | nil => intro h; simp at h
  | cons a rest =>
    intro hlen hfirst hlast
    have hrest : rest ≠ [] := by
      intro h
      rw [h] at hlen
      simp at hlen
    rw [lastEl_cons_ne d a hrest] at hlast
    have hmem : lastEl d rest ∈ rest := lastEl_mem d hrest
    have hmemf : lastEl d rest ∈ rest.filter p := List.mem_filter.2 ⟨hmem, hlast⟩
    have h1 : 1 ≤ (rest.filter p).length := by
      cases hfp : rest.filter p with
      | nil => rw [hfp] at hmemf; simp at hmemf
      | cons _ _ => simp
    have ha : p a = true := by simpa using hfirst
    rw [List.filter_cons, if_pos ha]
    simpa using Nat.succ_le_succ h1

/-- The first line of `splitNl` applied to text starting with a
non-newline character starts with that character. -/
theorem splitNl_cons_ne {c : Char} (rest : List Char) (h : ¬ c = '\n') :
    ∃ l₀ ls, splitNl (c :: rest) = (c :: l₀) :: ls := by
  rw [splitNl, if_neg h]
  cases splitNl rest with
  | nil => exact ⟨[], [], rfl⟩
  | cons l ls => exact ⟨l, ls, rfl⟩

/-- The last character of the text, if not a newline, lands in the last
line of `splitNl`. -/
theorem splitNl_last_mem {c : Char} (hc : ¬ c = '\n') :
    ∀ x : List Char, c ∈ lastEl [] (splitNl (x ++ [c])) := by
  intro x
  induction x with
  | nil =>
    have hl : splitNl [c] = [[c]] := by
      rw [splitNl, if_neg hc]
      rfl
    show c ∈ lastEl [] (splitNl [c])
    rw [hl]
    simp [lastEl]
  | cons a x' ih =>
    rw [List.cons_append, splitNl]
    by_cases ha : a = '\n'
    · rw [if_pos ha, lastEl_cons_ne [] [] (splitNl_ne_nil _)]
      exact ih
    · rw [if_neg ha]
      rcases hs : splitNl (x' ++ [c]) with _ | ⟨l, ls⟩
      · exact absurd hs (splitNl_ne_nil _)
      · rw [hs] at ih
        cases ls with
        | nil =>
          exact List.mem_cons_of_mem _ (by simpa [lastEl] using ih)
        | cons l' ls' =>
          rw [lastEl_cons_ne [] _ (by simp)]
          rw [lastEl_cons_ne [] _ (by simp)] at ih
          exact ih

/-- A stripped text that splits into at least two lines has at least
two non-blank lines. -/
theorem nonblank_count_lower (t : List Char)
    (h2 : 2 ≤ (splitNl (pyStrip t)).length) :
    2 ≤ ((splitNl (pyStrip t)).filter (fun l => !(pyStrip l).isEmpty)).length := by
  have hne : pyStrip t ≠ [] := by
    intro h
    rw [h] at h2
    simp [splitNl] at h2
  rcases hs : pyStrip t with _ | ⟨c₀, srest⟩
  · exact absurd hs hne
  have hc₀ : isWS c₀ = false := pyStrip_head hs
  have hc₀n : ¬ c₀ = '\n' := by
    intro h
    rw [h] at hc₀
    simp [isWS] at hc₀
  -- first line
  obtain ⟨l₀, ls, hfirst⟩ := splitNl_cons_ne srest hc₀n
  have hfirstnb : (!(pyStrip (c₀ :: l₀)).isEmpty) = true := by
    simp only [Bool.not_eq_eq_eq_not, Bool.not_true, List.isEmpty_eq_false]
    intro hnil
    have := pyStrip_eq_nil_iff.1 hnil c₀ (by simp)
    rw [hc₀] at this
    simp at this
  -- last character
  have hlast' : (pyStrip t).reverse ≠ [] := by
    rw [hs]; simp
  rcases hrev : (pyStrip t).reverse with _ | ⟨c₁, rrest⟩
  · exact absurd hrev hlast'
  have hc₁ : isWS c₁ = false := pyStrip_getLast hrev
  have hc₁n : ¬ c₁ = '\n' := by
    intro h
    rw [h] at hc₁
    simp [isWS] at hc₁
  have hdecomp : pyStrip t = rrest.reverse ++ [c₁] := by
    have := congrArg List.reverse hrev
    simpa using this
  have hlastmem : c₁ ∈ lastEl [] (splitNl (pyStrip t)) := by
    rw [hdecomp]
    exact splitNl_last_mem hc₁n rrest.reverse
  have hlastnb : (!(pyStrip (lastEl [] (splitNl (pyStrip t)))).isEmpty) = true := by
    simp only [Bool.not_eq_eq_eq_not, Bool.not_true, List.isEmpty_eq_false]
    intro hnil
    have := pyStrip_eq_nil_iff.1 hnil c₁ hlastmem
    rw [hc₁] at this
    simp at this
  have hheadnb : (!(pyStrip ((splitNl (pyStrip t)).headD [])).isEmpty) = true := by
    rw [hs, hfirst]
    simpa using hfirstnb
  rw [← hs]
  exact filter_first_last (fun l => !(pyStrip l).isEmpty) [] (splitNl (pyStrip t))
    h2 hheadnb hlastnb

/-- Claim C8.  Empty-not-error edge case: when no line of the text
contains both the identifier-label and name-label marker tokens of the
parser, or the text has fewer than two non-blank lines, both
`parse_twse_csv` (for every source name) and `parse_tpex_csv` return
the empty table; both are total functions, so no exception reaches the
caller. -/
theorem parsers_empty_edge_cases (csv_content name : String)
    (htwse : ((splitNl (pyStrip csv_content.data)).filter
          (fun l => !(pyStrip l).isEmpty)).length < 2 ∨
        ∀ l ∈ splitNl (pyStrip csv_content.data),
          ¬(subStr "證券代號".data l = true ∧ subStr "證券名稱".data l = true))
    (htpex : ((splitNl (pyStrip csv_content.data)).filter
          (fun l => !(pyStrip l).isEmpty)).length < 2 ∨
        ∀ l ∈ splitNl (pyStrip csv_content.data),
          ¬(subStr "代號".data l = true ∧ subStr "名稱".data l = true)) :
    parse_twse_csv csv_content name = emptyPT ∧
      parse_tpex_csv csv_content = emptyPT := by
  constructor
  · unfold parse_twse_csv parse_twse_lines
    rcases htwse with hshort | hmark
    · rw [if_pos hshort]
    · by_cases hshort : ((splitNl (pyStrip csv_content.data)).filter
          (fun l => !(pyStrip l).isEmpty)).length < 2
      · rw [if_pos hshort]
      · rw [if_neg hshort]
        have hnone : headerIdxTwse ((splitNl (pyStrip csv_content.data)).filter
            (fun l => !(pyStrip l).isEmpty)) = none := by
          unfold headerIdxTwse
          rw [firstIdx_eq_none_iff]
          intro x hx
          have hx' : x ∈ splitNl (pyStrip csv_content.data) :=
            List.mem_of_mem_filter hx
          have := hmark x hx'
          rcases h1 : subStr "證券代號".data x with _ | _
          · simp [h1]
          · rcases h2 : subStr "證券名稱".data x with _ | _
            · simp [h2]
            · exact absurd ⟨h1, h2⟩ this
        rw [hnone]
  · unfold parse_tpex_csv parse_tpex_lines
    rcases htpex with hshort | hmark
    · have hraw : (splitNl (pyStrip csv_content.data)).length < 2 := by
        by_contra hge
        exact absurd (nonblank_count_lower csv_content.data (Nat.le_of_not_lt hge))
          (Nat.not_le_of_lt hshort)
      rw [if_pos hraw]
    · by_cases hraw : (splitNl (pyStrip csv_content.data)).length < 2
      · rw [if_pos hraw]
      · rw [if_neg hraw]
        have hnone : headerIdxTpex (splitNl (pyStrip csv_content.data)) = none := by
          unfold headerIdxTpex
          rw [firstIdx_eq_none_iff]
          intro x hx
          have := hmark x hx
          rcases h1 : subStr "代號".data x with _ | _
          · simp [h1]
          · rcases h2 : subStr "名稱".data x with _ | _
            · simp [h2]
            · exact absurd ⟨h1, h2⟩ this
        rw [hnone]

/-- Witness for claim C8 at a concrete input: a one-line text. -/
theorem parsers_empty_edge_cases_witness :
    (((splitNl (pyStrip ("hello" : String).data)).filter
        (fun l => !(pyStrip l).isEmpty)).length < 2) ∧
      parse_twse_csv "hello" "投信" = emptyPT ∧
      parse_tpex_csv "hello" = emptyPT := by
  have h := parsers_empty_edge_cases "hello" "投信"
    (Or.inl (by decide)) (Or.inl (by decide))
  exact ⟨by decide, h.1, h.2⟩

/-! ### Two-level header flattening (claim C9)

A declarative companion of `buildCols`, phrased as the specification
does: the group label of column `i` is the nearest preceding non-blank
cleaned group label (left-to-right forward fill), the sub-label is the
cleaned second-line label, data rows start two lines after the header,
and output fields are selected by explicit `(group, sub)` lookup. -/

/-- Forward fill from a running label: the group label of column `i`
is the last non-blank cleaned label among the first `i + 1` entries of
the first header line, or the running label when all are blank. -/
def ffillFrom (cur : List Char) (h1 : List (List Char)) (i : Nat) : List Char :=
  (((h1.take (i + 1)).map cleanLbl).filter (fun x => !x.isEmpty)).getLastD cur

/-- Modelled from the spec: the flat `(group, sub)` keys built by an
explicit forward-fill pass over the first header line, where a blank
group label inherits the nearest preceding non-blank one; fails when
the second header line is shorter than the first. -/
def specCols (h1 h2 : List (List Char)) :
    Option (List (List Char × List Char)) :=
  if h1.length ≤ h2.length then
    some ((List.range h1.length).map
      (fun i => (ffillFrom [] h1 i, cleanLbl (h2.getD i []))))
  else none

/-- Modelled from the spec: the two-level-header parse with the
declarative forward-fill column construction; data rows begin two
lines after the detected header line, and every output field is
selected by an explicit `(group, sub)` lookup, dropping all other
column combinations. -/
def twoLevelSpec (lines : List (List Char)) (h : Nat) (name : String) :
    Option PTable :=
  match lines[h]?, lines[h+1]? with
  | some l1, some l2 =>
    match specCols (splitFields l1) (splitFields l2) with
    | none => none
    | some cols => twoLevelAssemble cols ((lines.drop (h+2)).map splitFields) name
  | _, _ => none

theorem ffillFrom_cons_zero (cur t : List Char) (ts : List (List Char)) :
    ffillFrom cur (t :: ts) 0 =
      if (cleanLbl t).isEmpty then cur else cleanLbl t := by
  unfold ffillFrom
  show ([cleanLbl t].filter (fun x => !x.isEmpty)).getLastD cur = _
  by_cases ht : (cleanLbl t).isEmpty
  · rw [List.filter_cons, if_neg (by simp [ht]), if_pos ht]
    rfl
  · rw [List.filter_cons, if_pos (by simpa using ht), if_neg ht]
    rfl

theorem ffillFrom_cons_succ (cur t : List Char) (ts : List (List Char)) (i : Nat) :
    ffillFrom cur (t :: ts) (i + 1) =
      ffillFrom (if (cleanLbl t).isEmpty then cur else cleanLbl t) ts i := by
  unfold ffillFrom
  show ((cleanLbl t :: (ts.take (i + 1)).map cleanLbl).filter
      (fun x => !x.isEmpty)).getLastD cur = _
  by_cases ht : (cleanLbl t).isEmpty
  · rw [List.filter_cons, if_neg (by simp [ht]), if_pos ht]
  · rw [List.filter_cons, if_pos (by simpa using ht), if_neg ht]
    rw [List.getLastD_cons]

/-- The imperative forward-fill loop of `parse_twse_csv` equals the
declarative nearest-preceding-non-blank formula. -/
theorem buildCols_eq (h1 : List (List Char)) :
    ∀ (h2 : List (List Char)) (cur : List Char),
      buildCols cur h1 h2 =
        if h1.length ≤ h2.length then
          some ((List.range h1.length).map
            (fun i => (ffillFrom cur h1 i, cleanLbl (h2.getD i []))))
        else none := by
  induction h1 with
  | nil =>
    intro h2 cur
    rw [if_pos (by simp)]
    rfl
  | cons t ts ih =>
    intro h2 cur
    cases h2 with
    | nil =>
      rw [if_neg (by simp)]
      rfl
    | cons sc ss =>
      show ((buildCols (if (cleanLbl t).isEmpty then cur else cleanLbl t) ts ss).map
          (fun rest =>
            ((if (cleanLbl t).isEmpty then cur else cleanLbl t), cleanLbl sc) :: rest)) =
        _
      rw [ih ss (if (cleanLbl t).isEmpty then cur else cleanLbl t)]
      by_cases hlen : ts.length ≤ ss.length
      · rw [if_pos hlen,
          if_pos (show (t :: ts).length ≤ (sc :: ss).length from
            Nat.succ_le_succ hlen)]
        rw [Option.map_some']
        congr 1
        rw [List.length_cons, List.range_succ_eq_map, List.map_cons, List.map_map]
        congr 1
        · rw [ffillFrom_cons_zero]
          rfl
        · apply List.map_congr_left
          intro i _
          show (ffillFrom (if (cleanLbl t).isEmpty then cur else cleanLbl t) ts i,
              cleanLbl (ss.getD i [])) =
            (ffillFrom cur (t :: ts) (i + 1), cleanLbl ((sc :: ss).getD (i + 1) []))
          rw [ffillFrom_cons_succ]
          rfl
      · rw [if_neg hlen,
          if_neg (show ¬ (t :: ts).length ≤ (sc :: ss).length from
            fun hcontra => hlen (Nat.le_of_succ_le_succ hcontra))]
        rfl

/-- Claim C9.  Two-level header flattening: for the two-level-header
source kinds, the column keys built by `parse_twse_csv`'s imperative
loop are exactly the spec's forward-filled `(group, sub)` pairs (a
blank group label inherits the nearest preceding non-blank group
label, left-to-right), data rows are taken starting two lines after
the detected header line, output fields are selected only by explicit
`(group, sub)` lookup, and all other column combinations are dropped:
the code's branch equals the spec-side definition on every input. -/
theorem twoLevelBranch_eq_spec (lines : List (List Char)) (h : Nat) (name : String) :
    twoLevelBranch lines h name = twoLevelSpec lines h name := by
  unfold twoLevelBranch twoLevelSpec
  cases lines[h]? with
  | none => rfl
  | some l1 =>
    cases lines[h+1]? with
    | none => rfl
    | some l2 =>
      show (match buildCols [] (splitFields l1) (splitFields l2) with
          | none => none
          | some cols =>
            twoLevelAssemble cols ((lines.drop (h+2)).map splitFields) name) =
        (match specCols (splitFields l1) (splitFields l2) with
          | none => none
          | some cols =>
            twoLevelAssemble cols ((lines.drop (h+2)).map splitFields) name)
      rw [buildCols_eq (splitFields l1) (splitFields l2) []]
      unfold specCols
      rfl

/-! ### Merge commutativity (claim C6)

`merge_dataframes` folds the two-table outer join over the valid
tables left to right.  The claim is that the result's content (column
set and row multiset) does not depend on the order of the input
tables, provided every table carries the join keys, rows are supported
on their table's columns, and non-key column names do not repeat
across tables.  The proof shows the two-step merge is commutative in
its two newest arguments up to content equality, and lifts that to
arbitrary permutations of the fold. -/

/-- Rows take missing values outside their table's columns (a pandas
row has no cells beyond the table's columns). -/
def Supp (A : DF) : Prop := ∀ r ∈ A.rows, ∀ c, c ∉ A.cols → r c = MV.na

/-- Same column set. -/
def colsEquiv (A B : DF) : Prop := ∀ c, c ∈ A.cols ↔ c ∈ B.cols

/-- Content equality: same column set and same row multiset. -/
def dfEq (A B : DF) : Prop := colsEquiv A B ∧ A.rows ~ B.rows

theorem dfEq_refl (A : DF) : dfEq A A := ⟨fun _ => Iff.rfl, List.Perm.refl _⟩

theorem dfEq_trans {A B C : DF} (h₁ : dfEq A B) (h₂ : dfEq B C) : dfEq A C :=
  ⟨fun c => (h₁.1 c).trans (h₂.1 c), h₁.2.trans h₂.2⟩

theorem dfEq_symm {A B : DF} (h : dfEq A B) : dfEq B A :=
  ⟨fun c => (h.1 c).symm, h.2.symm⟩

/-! #### Generic list lemmas -/

theorem flatMap_congr_mem {α β : Type} {l : List α} {f g : α → List β}
    (h : ∀ x ∈ l, f x = g x) : l.flatMap f = l.flatMap g := by
  induction l with
  | nil => rfl
  | cons x xs ih =>
    rw [List.flatMap_cons, List.flatMap_cons, h x (by simp),
      ih (fun y hy => h y (List.mem_cons_of_mem x hy))]

theorem flatMap_append_dist {α β : Type} (l : List α) (f g : α → List β) :
    l.flatMap (fun x => f x ++ g x) ~ l.flatMap f ++ l.flatMap g := by
  induction l with
  | nil => rfl
  | cons x xs ih =>
    rw [List.flatMap_cons, List.flatMap_cons, List.flatMap_cons]
    calc (f x ++ g x) ++ xs.flatMap (fun x => f x ++ g x)
        ~ (f x ++ g x) ++ (xs.flatMap f ++ xs.flatMap g) := ih.append_left _
      _ = f x ++ (g x ++ xs.flatMap f) ++ xs.flatMap g := by
          simp [List.append_assoc]
      _ ~ f x ++ (xs.flatMap f ++ g x) ++ xs.flatMap g := by
          exact ((List.perm_append_comm.append_left (f x)).append_right _)
      _ = (f x ++ xs.flatMap f) ++ (g x ++ xs.flatMap g) := by
          simp [List.append_assoc]

theorem flatMap_swap_perm {α β γ : Type} (as : List α) (bs : List β)
    (f : α → β → List γ) :
    as.flatMap (fun a => bs.flatMap (fun b => f a b)) ~
      bs.flatMap (fun b => as.flatMap (fun a => f a b)) := by
  induction as with
  | nil =>
    have : bs.flatMap (fun b => ([] : List γ)) = [] := by
      induction bs with
      | nil => rfl
      | cons b bs ih => rw [List.flatMap_cons, List.nil_append, ih]
    rw [List.flatMap_nil, this.symm]
    exact (List.Perm.refl _)
  | cons a as ih =>
    rw [List.flatMap_cons]
    have hdist : bs.flatMap (fun b => f a b ++ as.flatMap (fun a => f a b)) ~
        bs.flatMap (fun b => f a b) ++
          bs.flatMap (fun b => as.flatMap (fun a => f a b)) :=
      flatMap_append_dist bs _ _
    have hcongr : bs.flatMap (fun b => (a :: as).flatMap (fun a => f a b)) =
        bs.flatMap (fun b => f a b ++ as.flatMap (fun a => f a b)) := by
      apply flatMap_congr_mem
      intro b _
      rw [List.flatMap_cons]
    rw [hcongr]
    exact ((ih.append_left _).trans hdist.symm).symm.symm

theorem filter_map_eq_flatMap {α β : Type} (l : List α) (p : α → Bool)
    (f : α → β) :
    (l.filter p).map f = l.flatMap (fun x => if p x then [f x] else []) := by
  induction l with
  | nil => rfl
  | cons x xs ih =>
    rw [List.filter_cons, List.flatMap_cons]
    by_cases hp : p x = true
    · rw [if_pos hp, if_pos hp, List.map_cons, ih]
      rfl
    · rw [if_neg hp, if_neg hp, ih]
      rfl

theorem beq_comm_keys (x y : MV × MV) : (x == y) = (y == x) := by
  by_cases h : x = y
  · rw [h]
  · have h1 : (x == y) = false := by
      rw [beq_eq_false_iff_ne]
      exact h
    have h2 : (y == x) = false := by
      rw [beq_eq_false_iff_ne]
      exact fun hc => h hc.symm
    rw [h1, h2]

/-! #### Contains and non-key column lemmas -/

theorem contains_true_iff (l : List String) (c : String) :
    l.contains c = true ↔ c ∈ l := by
  constructor
  · intro h
    exact List.mem_of_elem_eq_true h
  · intro h
    exact List.elem_eq_true_of_mem h

theorem contains_false_iff (l : List String) (c : String) :
    l.contains c = false ↔ c ∉ l := by
  constructor
  · intro h hc
    rw [(contains_true_iff l c).2 hc] at h
    cases h
  · intro h
    cases hc : l.contains c with
    | false => rfl
    | true => exact absurd ((contains_true_iff l c).1 hc) h

theorem contains_append_str (l₁ l₂ : List String) (c : String) :
    (l₁ ++ l₂).contains c = (l₁.contains c || l₂.contains c) := by
  by_cases h1 : c ∈ l₁
  · rw [(contains_true_iff _ c).2 (List.mem_append_left l₂ h1),
      (contains_true_iff _ c).2 h1, Bool.true_or]
  · by_cases h2 : c ∈ l₂
    · rw [(contains_true_iff _ c).2 (List.mem_append_right l₁ h2),
        (contains_true_iff _ c).2 h2, Bool.or_true]
    · rw [(contains_false_iff _ c).2 h1, (contains_false_iff _ c).2 h2,
        (contains_false_iff _ c).2 (by
          intro hc
          rcases List.mem_append.1 hc with hc | hc
          · exact h1 hc
          · exact h2 hc)]
      rfl

theorem contains_congr_of_equiv {l l' : List String}
    (h : ∀ c, c ∈ l ↔ c ∈ l') : ∀ c, l.contains c = l'.contains c := by
  intro c
  by_cases hc : c ∈ l
  · rw [(contains_true_iff l c).2 hc, (contains_true_iff l' c).2 ((h c).1 hc)]
  · rw [(contains_false_iff l c).2 hc,
      (contains_false_iff l' c).2 (fun hc' => hc ((h c).2 hc'))]

theorem nkCols_not_key {X : DF} {c : String} (h : c ∈ nkCols X) :
    isKeyCol c = false := by
  unfold nkCols at h
  rw [List.mem_filter] at h
  simpa using h.2

theorem nkCols_mem_cols {X : DF} {c : String} (h : c ∈ nkCols X) : c ∈ X.cols := by
  unfold nkCols at h
  exact (List.mem_filter.1 h).1

theorem isKeyCol_keyId : isKeyCol keyId = true := by decide

theorem isKeyCol_keyName : isKeyCol keyName = true := by decide

theorem nonkey_list_keyId_false {l : List String}
    (h : ∀ c ∈ l, isKeyCol c = false) :
    l.contains keyId = false ∧ l.contains keyName = false := by
  constructor
  · rw [contains_false_iff]
    intro hc
    have h1 := h keyId hc
    rw [isKeyCol_keyId] at h1
    cases h1
  · rw [contains_false_iff]
    intro hc
    have h1 := h keyName hc
    rw [isKeyCol_keyName] at h1
    cases h1

/-! #### Decomposition of the two-table merge -/

/-- The left part of the outer join: every left row paired with each
key-matching right row, or padded when none matches. -/
def mergeL (A B : DF) : List MRow :=
  A.rows.flatMap (fun a =>
    if (B.rows.filter (fun b => rKey b == rKey a)).isEmpty then
      [cmb (nkCols A) (nkCols B) a naRow]
    else (B.rows.filter (fun b => rKey b == rKey a)).map
      (fun b => cmb (nkCols A) (nkCols B) a b))

/-- The right part of the outer join: right rows with no key match. -/
def mergeR (A B : DF) : List MRow :=
  (B.rows.filter (fun b => !(A.rows.any (fun a => rKey a == rKey b)))).map
    (fun b => cmb (nkCols A) (nkCols B) (keyOnlyRow b) b)

theorem mergeTwo_rows (A B : DF) : (mergeTwo A B).rows = mergeL A B ++ mergeR A B := rfl

theorem mergeTwo_cols (A B : DF) : (mergeTwo A B).cols = A.cols ++ nkCols B := rfl

/-- Padding choice: a list of match candidates, or the all-missing row
when there are none. -/
def eopt (ms : List MRow) : List MRow := if ms.isEmpty then [naRow] else ms

theorem eopt_ne_nil (ms : List MRow) : eopt ms ≠ [] := by
  unfold eopt
  by_cases h : ms.isEmpty
  · rw [if_pos h]; simp
  · rw [if_neg h]
    intro hc
    rw [hc] at h
    simp at h

theorem mergeL_eq (A B : DF) :
    mergeL A B = A.rows.flatMap (fun a =>
      (eopt (B.rows.filter (fun b => rKey b == rKey a))).map
        (fun z => cmb (nkCols A) (nkCols B) a z)) := by
  unfold mergeL
  apply flatMap_congr_mem
  intro a _
  unfold eopt
  by_cases h : (B.rows.filter (fun b => rKey b == rKey a)).isEmpty
  · rw [if_pos h, if_pos h]
    rfl
  · rw [if_neg h, if_neg h]

theorem nkCols_mergeTwo (A B : DF) :
    nkCols (mergeTwo A B) = nkCols A ++ nkCols B := by
  show (A.cols ++ nkCols B).filter (fun c => !(isKeyCol c)) = _
  rw [List.filter_append]
  congr 1
  apply List.filter_eq_self.2
  intro c hc
  simp [nkCols_not_key hc]

theorem rKey_keyOnlyRow (b : MRow) : rKey (keyOnlyRow b) = rKey b := by
  unfold rKey keyOnlyRow
  rw [if_pos isKeyCol_keyId, if_pos isKeyCol_keyName]

/-- The combined row keeps the left side's join key, as long as neither
column name list mentions a key column. -/
theorem rKey_cmb {ank bnk : List String} (a b : MRow)
    (hank : ∀ c ∈ ank, isKeyCol c = false)
    (hbnk : ∀ c ∈ bnk, isKeyCol c = false) :
    rKey (cmb ank bnk a b) = rKey a := by
  obtain ⟨ha1, ha2⟩ := nonkey_list_keyId_false hank
  obtain ⟨hb1, hb2⟩ := nonkey_list_keyId_false hbnk
  unfold rKey cmb
  rw [hb1, ha1, hb2, ha2]
  simp [isKeyCol_keyId, isKeyCol_keyName]

theorem nkCols_append_not_key {A B : DF} :
    ∀ c ∈ nkCols A ++ nkCols B, isKeyCol c = false := by
  intro c hc
  rcases List.mem_append.1 hc with hc | hc
  · exact nkCols_not_key hc
  · exact nkCols_not_key hc

/-- Non-key columns of two tables do not overlap. -/
def DisjNK (A B : DF) : Prop := ∀ c, c ∈ nkCols A → c ∉ nkCols B

theorem isKeyCol_true_iff {c : String} :
    isKeyCol c = true ↔ c = keyId ∨ c = keyName := by
  unfold isKeyCol
  rw [Bool.or_eq_true, beq_iff_eq, beq_iff_eq]

theorem rKey_components {a b : MRow} (h : rKey a = rKey b) :
    a keyId = b keyId ∧ a keyName = b keyName := by
  unfold rKey at h
  exact ⟨congrArg Prod.fst h, congrArg Prod.snd h⟩

/-- Attaching the rows of `A` and then those of `B` to a row of `M`
equals attaching them in the other order, as long as the non-key
columns of `A` and `B` do not overlap. -/
theorem cmb_left_comm {M A B : DF} (hd : DisjNK A B) (m y z : MRow) :
    cmb (nkCols M ++ nkCols A) (nkCols B) (cmb (nkCols M) (nkCols A) m y) z =
      cmb (nkCols M ++ nkCols B) (nkCols A) (cmb (nkCols M) (nkCols B) m z) y := by
  funext c
  unfold cmb
  by_cases hA : c ∈ nkCols A
  · by_cases hB : c ∈ nkCols B
    · exact absurd hB (hd c hA)
    · simp [contains_append_str, contains_true_iff, contains_false_iff,
        hA, hB, nkCols_not_key hA]
  · by_cases hB : c ∈ nkCols B
    · simp [contains_append_str, contains_true_iff, contains_false_iff,
        hA, hB, nkCols_not_key hB]
    · by_cases hM : c ∈ nkCols M
      · simp [contains_append_str, contains_true_iff, contains_false_iff,
          hA, hB, hM, nkCols_not_key hM]
      · by_cases hK : isKeyCol c = true
        · simp [contains_append_str, contains_true_iff, contains_false_iff,
            hA, hB, hM, hK]
        · simp [contains_append_str, contains_true_iff, contains_false_iff,
            hA, hB, hM, hK]

/-- An `A`-only row matched against a `B` row with the same key equals
the corresponding `B`-only row matched against the `A` row. -/
theorem cmb_only_swap {M A B : DF} (hd : DisjNK A B) (a b : MRow)
    (hk : rKey a = rKey b) :
    cmb (nkCols M ++ nkCols A) (nkCols B)
        (cmb (nkCols M) (nkCols A) (keyOnlyRow a) a) b =
      cmb (nkCols M ++ nkCols B) (nkCols A)
        (cmb (nkCols M) (nkCols B) (keyOnlyRow b) b) a := by
  obtain ⟨hk1, hk2⟩ := rKey_components hk
  funext c
  unfold cmb keyOnlyRow
  by_cases hA : c ∈ nkCols A
  · by_cases hB : c ∈ nkCols B
    · exact absurd hB (hd c hA)
    · simp [contains_append_str, contains_true_iff, contains_false_iff,
        hA, hB, nkCols_not_key hA]
  · by_cases hB : c ∈ nkCols B
    · simp [contains_append_str, contains_true_iff, contains_false_iff,
        hA, hB, nkCols_not_key hB]
    · by_cases hM : c ∈ nkCols M
      · simp [contains_append_str, contains_true_iff, contains_false_iff,
          hA, hB, hM, nkCols_not_key hM]
      · by_cases hK : isKeyCol c = true
        · rcases isKeyCol_true_iff.1 hK with rfl | rfl <;>
            simp [contains_append_str, contains_true_iff, contains_false_iff,
              hA, hB, hM, hK, hk1, hk2]
        · simp [contains_append_str, contains_true_iff, contains_false_iff,
            hA, hB, hM, hK]

/-- An `A`-only row with no `B` match equals the corresponding
`A`-right-only row of the other merge order. -/
theorem cmb_only_nomatch {M A B : DF} (hd : DisjNK A B) (a : MRow) :
    cmb (nkCols M ++ nkCols A) (nkCols B)
        (cmb (nkCols M) (nkCols A) (keyOnlyRow a) a) naRow =
      cmb (nkCols M ++ nkCols B) (nkCols A) (keyOnlyRow a) a := by
  funext c
  unfold cmb keyOnlyRow naRow
  by_cases hA : c ∈ nkCols A
  · by_cases hB : c ∈ nkCols B
    · exact absurd hB (hd c hA)
    · simp [contains_append_str, contains_true_iff, contains_false_iff,
        hA, hB, nkCols_not_key hA]
  · by_cases hB : c ∈ nkCols B
    · simp [contains_append_str, contains_true_iff, contains_false_iff,
        hA, hB, nkCols_not_key hB]
    · by_cases hM : c ∈ nkCols M
      · simp [contains_append_str, contains_true_iff, contains_false_iff,
          hA, hB, hM, nkCols_not_key hM]
      · by_cases hK : isKeyCol c = true
        · simp [contains_append_str, contains_true_iff, contains_false_iff,
            hA, hB, hM, hK]
        · simp [contains_append_str, contains_true_iff, contains_false_iff,
            hA, hB, hM, hK]

/-! #### More list helpers for the merge decomposition -/

theorem map_eq_flatMap_singleton {α β : Type} (l : List α) (f : α → β) :
    l.map f = l.flatMap (fun x => [f x]) := by
  induction l with
  | nil => rfl
  | cons x xs ih => rw [List.map_cons, List.flatMap_cons, ih]; rfl

theorem flatMap_perm_congr {α β : Type} {l : List α} {f g : α → List β}
    (h : ∀ x ∈ l, f x ~ g x) : l.flatMap f ~ l.flatMap g := by
  induction l with
  | nil => rfl
  | cons x xs ih =>
    rw [List.flatMap_cons, List.flatMap_cons]
    exact (h x (by simp)).append (ih (fun y hy => h y (List.mem_cons_of_mem x hy)))

theorem filter_isEmpty_eq_not_any {α : Type} (l : List α) (p : α → Bool) :
    (l.filter p).isEmpty = !(l.any p) := by
  induction l with
  | nil => rfl
  | cons x xs ih =>
    rw [List.filter_cons, List.any_cons]
    by_cases hp : p x = true
    · rw [if_pos hp, hp]
      simp
    · rw [if_neg hp, (by simpa using hp : p x = false)]
      simpa using ih

theorem filter_flatMap_push {α β : Type} (l : List α) (p : α → Bool)
    (f : α → List β) :
    (l.filter p).flatMap f = l.flatMap (fun x => if p x then f x else []) := by
  induction l with
  | nil => rfl
  | cons x xs ih =>
    rw [List.filter_cons, List.flatMap_cons]
    by_cases hp : p x = true
    · rw [if_pos hp, if_pos hp, List.flatMap_cons, ih]
    · rw [if_neg hp, if_neg hp, ih]
      rfl

theorem if_singleton_congr {α : Type} {c₁ c₂ : Bool} {x₁ x₂ : α}
    (hc : c₁ = c₂) (hx : c₁ = true → x₁ = x₂) :
    (if c₁ then [x₁] else []) = (if c₂ then [x₂] else []) := by
  subst hc
  by_cases h : c₁ = true
  · rw [if_pos h, if_pos h, hx h]
  · rw [if_neg h, if_neg h]

/-- The merged table holds a row with key `k` exactly when one of its
two inputs does. -/
theorem any_key_mergeTwo (X Y : DF) (k : MV × MV) :
    ((mergeTwo X Y).rows.any (fun x => rKey x == k)) =
      (X.rows.any (fun m => rKey m == k) || Y.rows.any (fun a => rKey a == k)) := by
  have hXnk : ∀ c ∈ nkCols X, isKeyCol c = false := fun c hc => nkCols_not_key hc
  have hYnk : ∀ c ∈ nkCols Y, isKeyCol c = false := fun c hc => nkCols_not_key hc
  by_cases hx : X.rows.any (fun m => rKey m == k) = true
  · rw [hx, Bool.true_or]
    rw [List.any_eq_true] at hx
    obtain ⟨m, hm, hmk⟩ := hx
    rw [List.any_eq_true]
    rw [mergeTwo_rows, mergeL_eq]
    rcases he : eopt (Y.rows.filter (fun b => rKey b == rKey m)) with _ | ⟨z, zs⟩
    · exact absurd he (eopt_ne_nil _)
    · refine ⟨cmb (nkCols X) (nkCols Y) m z, ?_, ?_⟩
      · apply List.mem_append_left
        rw [List.mem_flatMap]
        exact ⟨m, hm, by rw [he]; simp⟩
      · rw [rKey_cmb m z hXnk hYnk]
        exact hmk
  · by_cases hy : Y.rows.any (fun a => rKey a == k) = true
    · rw [hy, Bool.or_true]
      rw [List.any_eq_true] at hy
      obtain ⟨b, hb, hbk⟩ := hy
      rw [List.any_eq_true]
      refine ⟨cmb (nkCols X) (nkCols Y) (keyOnlyRow b) b, ?_, ?_⟩
      · rw [mergeTwo_rows]
        apply List.mem_append_right
        unfold mergeR
        rw [List.mem_map]
        refine ⟨b, ?_, rfl⟩
        rw [List.mem_filter]
        refine ⟨hb, ?_⟩
        have hnone : X.rows.any (fun a => rKey a == rKey b) = false := by
          rw [← Bool.not_eq_true, List.any_eq_true]
          rw [beq_iff_eq] at hbk
          subst hbk
          intro hc
          exact hx (List.any_eq_true.2 hc)
        rw [hnone]
        rfl
      · rw [rKey_cmb (keyOnlyRow b) b hXnk hYnk, rKey_keyOnlyRow]
        exact hbk
    · rw [(by simpa using hx : X.rows.any (fun m => rKey m == k) = false),
        (by simpa using hy : Y.rows.any (fun a => rKey a == k) = false)]
      simp only [Bool.or_false]
      rw [← Bool.not_eq_true, List.any_eq_true]
      rintro ⟨x, hxmem, hxk⟩
      rw [mergeTwo_rows] at hxmem
      rcases List.mem_append.1 hxmem with hxm | hxm
      · rw [mergeL_eq, List.mem_flatMap] at hxm
        obtain ⟨m, hm, hx2⟩ := hxm
        rw [List.mem_map] at hx2
        obtain ⟨z, _, rfl⟩ := hx2
        rw [rKey_cmb m z hXnk hYnk] at hxk
        exact hx (List.any_eq_true.2 ⟨m, hm, hxk⟩)
      · unfold mergeR at hxm
        rw [List.mem_map] at hxm
        obtain ⟨b, hb, rfl⟩ := hxm
        rw [rKey_cmb (keyOnlyRow b) b hXnk hYnk, rKey_keyOnlyRow] at hxk
        exact hy (List.any_eq_true.2 ⟨b, List.mem_of_mem_filter hb, hxk⟩)

/-- Decomposition of the rows of a double merge `(M ⋈ A) ⋈ B`: the
per-`M`-row cross products, the `A`-only rows matched against `B`, and
the rows of `B` matching neither `M` nor `A`. -/
theorem mergeTwo_assoc_rows (M A B : DF) :
    (mergeTwo (mergeTwo M A) B).rows =
      (M.rows.flatMap (fun m =>
        (eopt (A.rows.filter (fun y => rKey y == rKey m))).flatMap (fun y =>
          (eopt (B.rows.filter (fun z => rKey z == rKey m))).map (fun z =>
            cmb (nkCols M ++ nkCols A) (nkCols B)
              (cmb (nkCols M) (nkCols A) m y) z)))
      ++ (A.rows.filter (fun a => !(M.rows.any (fun x => rKey x == rKey a)))).flatMap
          (fun a => (eopt (B.rows.filter (fun z => rKey z == rKey a))).map (fun z =>
            cmb (nkCols M ++ nkCols A) (nkCols B)
              (cmb (nkCols M) (nkCols A) (keyOnlyRow a) a) z)))
      ++ ((B.rows.filter (fun b => !(M.rows.any (fun x => rKey x == rKey b)) &&
            !(A.rows.any (fun x => rKey x == rKey b)))).map
          (fun b => cmb (nkCols M ++ nkCols A) (nkCols B) (keyOnlyRow b) b)) := by
  have hMnk : ∀ c ∈ nkCols M, isKeyCol c = false := fun c hc => nkCols_not_key hc
  have hAnk : ∀ c ∈ nkCols A, isKeyCol c = false := fun c hc => nkCols_not_key hc
  rw [mergeTwo_rows]
  congr 1
  · rw [mergeL_eq, nkCols_mergeTwo, mergeTwo_rows M A, List.flatMap_append]
    congr 1
    · rw [mergeL_eq M A, List.flatMap_assoc]
      apply flatMap_congr_mem
      intro m _
      rw [flatMap_map]
      apply flatMap_congr_mem
      intro y _
      rw [rKey_cmb m y hMnk hAnk]
    · unfold mergeR
      rw [flatMap_map]
      apply flatMap_congr_mem
      intro a _
      rw [rKey_cmb (keyOnlyRow a) a hMnk hAnk, rKey_keyOnlyRow]
  · unfold mergeR
    rw [nkCols_mergeTwo]
    congr 1
    apply List.filter_congr
    intro b _
    rw [any_key_mergeTwo, Bool.not_or]

/-! #### Named components of the double-merge decomposition -/

def crossTerm (M A B : DF) : List MRow :=
  M.rows.flatMap (fun m =>
    (eopt (A.rows.filter (fun y => rKey y == rKey m))).flatMap (fun y =>
      (eopt (B.rows.filter (fun z => rKey z == rKey m))).map (fun z =>
        cmb (nkCols M ++ nkCols A) (nkCols B)
          (cmb (nkCols M) (nkCols A) m y) z)))

def onlyTerm (M A B : DF) : List MRow :=
  (A.rows.filter (fun a => !(M.rows.any (fun x => rKey x == rKey a)))).flatMap
    (fun a => (eopt (B.rows.filter (fun z => rKey z == rKey a))).map (fun z =>
      cmb (nkCols M ++ nkCols A) (nkCols B)
        (cmb (nkCols M) (nkCols A) (keyOnlyRow a) a) z))

def restTerm (M A B : DF) : List MRow :=
  (B.rows.filter (fun b => !(M.rows.any (fun x => rKey x == rKey b)) &&
      !(A.rows.any (fun x => rKey x == rKey b)))).map
    (fun b => cmb (nkCols M ++ nkCols A) (nkCols B) (keyOnlyRow b) b)

def matchTerm (M A B : DF) : List MRow :=
  (A.rows.filter (fun a => !(M.rows.any (fun x => rKey x == rKey a)))).flatMap
    (fun a => (B.rows.filter (fun z => rKey z == rKey a)).map (fun z =>
      cmb (nkCols M ++ nkCols A) (nkCols B)
        (cmb (nkCols M) (nkCols A) (keyOnlyRow a) a) z))

theorem mergeTwo_assoc_rows_named (M A B : DF) :
    (mergeTwo (mergeTwo M A) B).rows =
      (crossTerm M A B ++ onlyTerm M A B) ++ restTerm M A B :=
  mergeTwo_assoc_rows M A B

theorem eopt_map_split (ms : List MRow) (f : MRow → MRow) :
    (eopt ms).map f = ms.map f ++ (if ms.isEmpty then [f naRow] else []) := by
  cases ms with
  | nil => rfl
  | cons x xs => simp [eopt]

theorem flatMap_const_nil {α β : Type} (l : List α) :
    l.flatMap (fun _ => ([] : List β)) = [] := by
  induction l with
  | nil => rfl
  | cons x xs ih => rw [List.flatMap_cons, List.nil_append, ih]

/-- The cross part of the double merge is order-insensitive up to
permutation when the two right tables have disjoint non-key columns. -/
theorem crossTerm_swap (M A B : DF) (hd : DisjNK A B) :
    crossTerm M A B ~ crossTerm M B A := by
  unfold crossTerm
  apply flatMap_perm_congr
  intro m _
  calc (eopt (A.rows.filter (fun y => rKey y == rKey m))).flatMap (fun y =>
          (eopt (B.rows.filter (fun z => rKey z == rKey m))).map (fun z =>
            cmb (nkCols M ++ nkCols A) (nkCols B)
              (cmb (nkCols M) (nkCols A) m y) z))
      = (eopt (A.rows.filter (fun y => rKey y == rKey m))).flatMap (fun y =>
          (eopt (B.rows.filter (fun z => rKey z == rKey m))).flatMap (fun z =>
            [cmb (nkCols M ++ nkCols A) (nkCols B)
              (cmb (nkCols M) (nkCols A) m y) z])) := by
        apply flatMap_congr_mem
        intro y _
        exact map_eq_flatMap_singleton _ _
    _ ~ (eopt (B.rows.filter (fun z => rKey z == rKey m))).flatMap (fun z =>
          (eopt (A.rows.filter (fun y => rKey y == rKey m))).flatMap (fun y =>
            [cmb (nkCols M ++ nkCols A) (nkCols B)
              (cmb (nkCols M) (nkCols A) m y) z])) := flatMap_swap_perm _ _ _
    _ = (eopt (B.rows.filter (fun z => rKey z == rKey m))).flatMap (fun z =>
          (eopt (A.rows.filter (fun y => rKey y == rKey m))).map (fun y =>
            cmb (nkCols M ++ nkCols B) (nkCols A)
              (cmb (nkCols M) (nkCols B) m z) y)) := by
        apply flatMap_congr_mem
        intro z _
        rw [map_eq_flatMap_singleton]
        apply flatMap_congr_mem
        intro y _
        rw [cmb_left_comm hd]

def nomTerm (M A B : DF) : List MRow :=
  (A.rows.filter (fun a => !(M.rows.any (fun x => rKey x == rKey a)))).flatMap
    (fun a => if (B.rows.filter (fun z => rKey z == rKey a)).isEmpty then
      [cmb (nkCols M ++ nkCols A) (nkCols B)
        (cmb (nkCols M) (nkCols A) (keyOnlyRow a) a) naRow]
    else [])

/-- The unmatched part of the second merge equals the fallback part of
the opposite merge order. -/
theorem nomTerm_eq_rest (M A B : DF) (hd : DisjNK A B) :
    nomTerm M A B = restTerm M B A := by
  unfold nomTerm restTerm
  rw [filter_flatMap_push, filter_map_eq_flatMap]
  apply flatMap_congr_mem
  intro a _
  rw [filter_isEmpty_eq_not_any]
  by_cases h1 : (M.rows.any (fun x => rKey x == rKey a)) = true
  · simp [h1]
  · have h1f : (M.rows.any (fun x => rKey x == rKey a)) = false := by
      simpa using h1
    by_cases h2 : (B.rows.any (fun z => rKey z == rKey a)) = true
    · simp [h1f, h2]
    · have h2f : (B.rows.any (fun z => rKey z == rKey a)) = false := by
        simpa using h2
      simp [h1f, h2f, cmb_only_nomatch hd]

/-- The right-only part of the double merge splits into a matched part
and the fallback part of the opposite order. -/
theorem onlyTerm_split (M A B : DF) (hd : DisjNK A B) :
    onlyTerm M A B ~ matchTerm M A B ++ restTerm M B A := by
  unfold onlyTerm
  calc (A.rows.filter (fun a => !(M.rows.any (fun x => rKey x == rKey a)))).flatMap
        (fun a => (eopt (B.rows.filter (fun z => rKey z == rKey a))).map (fun z =>
          cmb (nkCols M ++ nkCols A) (nkCols B)
            (cmb (nkCols M) (nkCols A) (keyOnlyRow a) a) z))
      = (A.rows.filter (fun a => !(M.rows.any (fun x => rKey x == rKey a)))).flatMap
        (fun a => (B.rows.filter (fun z => rKey z == rKey a)).map (fun z =>
            cmb (nkCols M ++ nkCols A) (nkCols B)
              (cmb (nkCols M) (nkCols A) (keyOnlyRow a) a) z)
          ++ (if (B.rows.filter (fun z => rKey z == rKey a)).isEmpty then
              [cmb (nkCols M ++ nkCols A) (nkCols B)
                (cmb (nkCols M) (nkCols A) (keyOnlyRow a) a) naRow]
            else [])) := by
        apply flatMap_congr_mem
        intro a _
        exact eopt_map_split _ _
    _ ~ matchTerm M A B ++ nomTerm M A B := flatMap_append_dist _ _ _
    _ = matchTerm M A B ++ restTerm M B A := by rw [nomTerm_eq_rest M A B hd]

theorem matchTerm_eq_flat (M A B : DF) :
    matchTerm M A B = A.rows.flatMap (fun a => B.rows.flatMap (fun b =>
      if (!(M.rows.any (fun x => rKey x == rKey a))) && (rKey b == rKey a) then
        [cmb (nkCols M ++ nkCols A) (nkCols B)
          (cmb (nkCols M) (nkCols A) (keyOnlyRow a) a) b]
      else [])) := by
  unfold matchTerm
  rw [filter_flatMap_push]
  apply flatMap_congr_mem
  intro a _
  rw [filter_map_eq_flatMap]
  by_cases h1 : (!(M.rows.any (fun x => rKey x == rKey a))) = true
  · rw [if_pos h1, h1]
    apply flatMap_congr_mem
    intro b _
    rw [Bool.true_and]
  · have h1f : (!(M.rows.any (fun x => rKey x == rKey a))) = false := by
      simpa using h1
    rw [if_neg h1]
    have hnil : B.rows.flatMap (fun b =>
        if (!(M.rows.any (fun x => rKey x == rKey a))) && (rKey b == rKey a) then
          [cmb (nkCols M ++ nkCols A) (nkCols B)
            (cmb (nkCols M) (nkCols A) (keyOnlyRow a) a) b]
        else []) = B.rows.flatMap (fun _ => ([] : List MRow)) := by
      apply flatMap_congr_mem
      intro b _
      rw [h1f, Bool.false_and, if_neg (by simp)]
    rw [hnil, flatMap_const_nil]

/-- The matched part of the double merge is order-insensitive up to
permutation when the two right tables have disjoint non-key columns. -/
theorem matchTerm_swap (M A B : DF) (hd : DisjNK A B) :
    matchTerm M A B ~ matchTerm M B A := by
  rw [matchTerm_eq_flat M A B, matchTerm_eq_flat M B A]
  calc A.rows.flatMap (fun a => B.rows.flatMap (fun b =>
        if (!(M.rows.any (fun x => rKey x == rKey a))) && (rKey b == rKey a) then
          [cmb (nkCols M ++ nkCols A) (nkCols B)
            (cmb (nkCols M) (nkCols A) (keyOnlyRow a) a) b]
        else []))
      ~ B.rows.flatMap (fun b => A.rows.flatMap (fun a =>
          if (!(M.rows.any (fun x => rKey x == rKey a))) && (rKey b == rKey a) then
            [cmb (nkCols M ++ nkCols A) (nkCols B)
              (cmb (nkCols M) (nkCols A) (keyOnlyRow a) a) b]
          else [])) := flatMap_swap_perm _ _ _
    _ = B.rows.flatMap (fun b => A.rows.flatMap (fun a =>
          if (!(M.rows.any (fun x => rKey x == rKey b))) && (rKey a == rKey b) then
            [cmb (nkCols M ++ nkCols B) (nkCols A)
              (cmb (nkCols M) (nkCols B) (keyOnlyRow b) b) a]
          else [])) := by
        apply flatMap_congr_mem
        intro b _
        apply flatMap_congr_mem
        intro a _
        apply if_singleton_congr
        · by_cases hk : (rKey b == rKey a) = true
          · have hk' : rKey b = rKey a := beq_iff_eq.mp hk
            rw [hk']
          · have hkf : (rKey b == rKey a) = false := by simpa using hk
            have hkf2 : (rKey a == rKey b) = false := by
              rw [beq_comm_keys]; exact hkf
            rw [hkf, hkf2, Bool.and_false, Bool.and_false]
        · intro hc
          have hk : (rKey b == rKey a) = true := by
            rw [Bool.and_eq_true] at hc
            exact hc.2
          have hk' : rKey a = rKey b := (beq_iff_eq.mp hk).symm
          exact cmb_only_swap hd a b hk'

theorem perm_shuffle4 {α : Type} (x y z w : List α) :
    (x ++ (y ++ z)) ++ w ~ (x ++ (y ++ w)) ++ z := by
  have h1 : (x ++ (y ++ z)) ++ w = x ++ (y ++ (z ++ w)) := by
    simp [List.append_assoc]
  have h2 : (x ++ (y ++ w)) ++ z = x ++ (y ++ (w ++ z)) := by
    simp [List.append_assoc]
  rw [h1, h2]
  exact ((List.perm_append_comm).append_left y).append_left x

/-- Left-commutativity of sequential outer merges: merging `A` then `B`
onto `M` produces the same table (columns as a set, rows as a multiset)
as merging `B` then `A`, provided `A` and `B` share no non-key column. -/
theorem mergeTwo_left_comm (M A B : DF) (hd : DisjNK A B) :
    dfEq (mergeTwo (mergeTwo M A) B) (mergeTwo (mergeTwo M B) A) := by
  have hd' : DisjNK B A := fun c hb ha => hd c ha hb
  constructor
  · intro c
    simp only [mergeTwo_cols, List.mem_append]
    tauto
  · rw [mergeTwo_assoc_rows_named M A B, mergeTwo_assoc_rows_named M B A]
    calc (crossTerm M A B ++ onlyTerm M A B) ++ restTerm M A B
        ~ (crossTerm M A B ++ (matchTerm M A B ++ restTerm M B A)) ++ restTerm M A B :=
          ((onlyTerm_split M A B hd).append_left _).append_right _
      _ ~ (crossTerm M B A ++ (matchTerm M B A ++ restTerm M B A)) ++ restTerm M A B :=
          (((crossTerm_swap M A B hd).append
            ((matchTerm_swap M A B hd).append_right _))).append_right _
      _ ~ (crossTerm M B A ++ (matchTerm M B A ++ restTerm M A B)) ++ restTerm M B A :=
          perm_shuffle4 _ _ _ _
      _ ~ (crossTerm M B A ++ onlyTerm M B A) ++ restTerm M B A :=
          (((onlyTerm_split M B A hd').symm).append_left _).append_right _

theorem DisjNK_symm {A B : DF} (h : DisjNK A B) : DisjNK B A :=
  fun c hb ha => h c ha hb

theorem perm_any_eq {α : Type} {l l' : List α} (h : l ~ l') (p : α → Bool) :
    l.any p = l'.any p := by
  by_cases ha : l.any p = true
  · rw [List.any_eq_true] at ha
    obtain ⟨x, hx, hpx⟩ := ha
    rw [List.any_eq_true.2 ⟨x, hx, hpx⟩,
      List.any_eq_true.2 ⟨x, (h.mem_iff).1 hx, hpx⟩]
  · have hf : l.any p = false := by simpa using ha
    rw [hf]
    by_cases hb : l'.any p = true
    · rw [List.any_eq_true] at hb
      obtain ⟨x, hx, hpx⟩ := hb
      have : l.any p = true := List.any_eq_true.2 ⟨x, (h.mem_iff).2 hx, hpx⟩
      rw [this] at hf
      cases hf
    · simpa using fun h => hb h

theorem cmb_congr_ank {l l' : List String} (bnk : List String)
    (h : ∀ c, l.contains c = l'.contains c) (a b : MRow) :
    cmb l bnk a b = cmb l' bnk a b := by
  funext c
  unfold cmb
  rw [h c]

theorem nkCols_contains_congr {M M' : DF} (h : colsEquiv M M') :
    ∀ c, (nkCols M).contains c = (nkCols M').contains c := by
  apply contains_congr_of_equiv
  intro c
  unfold nkCols
  rw [List.mem_filter, List.mem_filter]
  exact and_congr_left (fun _ => h c)

theorem fillRow_congr {l l' : List String}
    (h : ∀ c, l.contains c = l'.contains c) :
    fillRow l = fillRow l' := by
  funext r c
  unfold fillRow
  rw [h c]

/-- Merging the same right table onto content-equal accumulators gives
content-equal results. -/
theorem mergeTwo_congr_left {M M' : DF} (A : DF) (h : dfEq M M') :
    dfEq (mergeTwo M A) (mergeTwo M' A) := by
  obtain ⟨hcols, hrows⟩ := h
  have hnk : ∀ c, (nkCols M).contains c = (nkCols M').contains c :=
    nkCols_contains_congr hcols
  constructor
  · intro c
    rw [mergeTwo_cols, mergeTwo_cols, List.mem_append, List.mem_append]
    exact or_congr_left (hcols c)
  · rw [mergeTwo_rows, mergeTwo_rows]
    apply List.Perm.append
    · rw [mergeL_eq, mergeL_eq]
      calc M.rows.flatMap (fun a =>
            (eopt (A.rows.filter (fun b => rKey b == rKey a))).map
              (fun z => cmb (nkCols M) (nkCols A) a z))
          = M.rows.flatMap (fun a =>
            (eopt (A.rows.filter (fun b => rKey b == rKey a))).map
              (fun z => cmb (nkCols M') (nkCols A) a z)) := by
            apply flatMap_congr_mem
            intro a _
            apply List.map_congr_left
            intro z _
            rw [cmb_congr_ank (nkCols A) hnk a z]
        _ ~ M'.rows.flatMap (fun a =>
            (eopt (A.rows.filter (fun b => rKey b == rKey a))).map
              (fun z => cmb (nkCols M') (nkCols A) a z)) :=
            hrows.flatMap_right _
    · unfold mergeR
      have hfil : A.rows.filter (fun b => !(M.rows.any (fun a => rKey a == rKey b)))
          = A.rows.filter (fun b => !(M'.rows.any (fun a => rKey a == rKey b))) := by
        apply List.filter_congr
        intro b _
        rw [perm_any_eq hrows]
      rw [hfil]
      apply List.Perm.of_eq
      apply List.map_congr_left
      intro b _
      rw [cmb_congr_ank (nkCols A) hnk]

theorem foldl_mergeTwo_congr {M M' : DF} (l : List DF) (h : dfEq M M') :
    dfEq (l.foldl mergeTwo M) (l.foldl mergeTwo M') := by
  induction l generalizing M M' with
  | nil => exact h
  | cons A l ih =>
    rw [List.foldl_cons, List.foldl_cons]
    exact ih (mergeTwo_congr_left A h)

/-- Folding the merge over any permutation of a list of tables with
pairwise disjoint non-key columns gives content-equal results, for
content-equal starting accumulators. -/
theorem foldl_mergeTwo_perm {l l' : List DF} (hp : l ~ l') :
    l.Pairwise DisjNK → ∀ M M', dfEq M M' →
      dfEq (l.foldl mergeTwo M) (l'.foldl mergeTwo M') := by
  induction hp with
  | nil =>
    intro _ M M' h
    exact h
  | cons A hp ih =>
    intro hdis M M' h
    rw [List.foldl_cons, List.foldl_cons]
    exact ih ((List.pairwise_cons.mp hdis).2) _ _ (mergeTwo_congr_left A h)
  | swap x y l =>
    intro hdis M M' h
    have hyx : DisjNK y x := (List.pairwise_cons.mp hdis).1 x (by simp)
    rw [List.foldl_cons, List.foldl_cons, List.foldl_cons, List.foldl_cons]
    apply foldl_mergeTwo_congr
    exact dfEq_trans (mergeTwo_left_comm M y x hyx)
      (mergeTwo_congr_left y (mergeTwo_congr_left x h))
  | trans h₁ h₂ ih₁ ih₂ =>
    intro hdis M M' h
    have hdis₂ := (h₁.pairwise_iff (fun hab => DisjNK_symm hab)).mp hdis
    exact dfEq_trans (ih₁ hdis _ _ (dfEq_refl M)) (ih₂ hdis₂ _ _ h)

/-- A key-only table with no rows: a two-sided unit for starting the
merge fold. -/
def unitDF : DF := ⟨[keyId, keyName], []⟩

theorem nkCols_unitDF : nkCols unitDF = [] := by decide

/-- Merging any well-supported table that carries both join keys onto
the unit table returns that table up to content equality. -/
theorem mergeTwo_unit (v : DF) (hk : hasKeysDF v = true) (hs : Supp v) :
    dfEq (mergeTwo unitDF v) v := by
  rw [hasKeysDF, Bool.and_eq_true, contains_true_iff, contains_true_iff] at hk
  constructor
  · intro c
    rw [mergeTwo_cols, List.mem_append]
    constructor
    · intro hc
      rcases hc with hc | hc
      · have hc2 : c = keyId ∨ c = keyName := by simpa [unitDF] using hc
        rcases hc2 with rfl | rfl
        · exact hk.1
        · exact hk.2
      · exact nkCols_mem_cols hc
    · intro hc
      by_cases hkey : isKeyCol c = true
      · rcases isKeyCol_true_iff.1 hkey with rfl | rfl
        · exact Or.inl (by simp [unitDF])
        · exact Or.inl (by simp [unitDF])
      · refine Or.inr ?h
        unfold nkCols
        rw [List.mem_filter]
        exact ⟨hc, by simpa using hkey⟩
  · rw [mergeTwo_rows]
    have hL : mergeL unitDF v = [] := rfl
    rw [hL, List.nil_append]
    apply List.Perm.of_eq
    unfold mergeR
    have hfil : v.rows.filter
        (fun b => !(unitDF.rows.any (fun a => rKey a == rKey b))) = v.rows :=
      List.filter_eq_self.2 (fun b _ => rfl)
    rw [hfil]
    calc v.rows.map (fun b => cmb (nkCols unitDF) (nkCols v) (keyOnlyRow b) b)
        = v.rows.map (fun b => b) := by
          apply List.map_congr_left
          intro b hb
          funext c
          rw [nkCols_unitDF]
          unfold cmb keyOnlyRow
          by_cases hnk : c ∈ nkCols v
          · rw [(contains_true_iff _ _).2 hnk]
            simp
          · rw [(contains_false_iff _ _).2 hnk]
            by_cases hkey : isKeyCol c = true
            · simp [hkey]
            · have hcols : c ∉ v.cols := by
                intro hc
                apply hnk
                unfold nkCols
                rw [List.mem_filter]
                exact ⟨hc, by simpa using hkey⟩
              have hna := hs b hb c hcols
              simp [hkey, hna]
      _ = v.rows := List.map_id _

/-- Claim C6.  Merge commutativity: for input tables that all carry the
two join-key columns, are supported on their own columns, and have
pairwise disjoint non-key column names, `merge_dataframes` applied to
any two permutations of the input list returns results with the same
content: the same column set and the same rows up to permutation. -/
theorem merge_dataframes_comm (dfs dfs' : List DF) (hp : dfs ~ dfs')
    (hk : ∀ df ∈ dfs, hasKeysDF df = true)
    (hs : ∀ df ∈ dfs, Supp df)
    (hd : dfs.Pairwise DisjNK) :
    dfEq (merge_dataframes dfs) (merge_dataframes dfs') := by
  have hk' : ∀ df ∈ dfs', hasKeysDF df = true :=
    fun df hdf => hk df (hp.mem_iff.2 hdf)
  have hs' : ∀ df ∈ dfs', Supp df :=
    fun df hdf => hs df (hp.mem_iff.2 hdf)
  have hfil : dfs.filter hasKeysDF = dfs := List.filter_eq_self.2 hk
  have hfil' : dfs'.filter hasKeysDF = dfs' := List.filter_eq_self.2 hk'
  unfold merge_dataframes
  rw [hfil, hfil']
  cases dfs with
  | nil =>
    have hnil : dfs' = [] := hp.symm.eq_nil
    rw [hnil]
    exact dfEq_refl _
  | cons v vs =>
    cases dfs' with
    | nil =>
      have hnil := hp.eq_nil
      cases hnil
    | cons v' vs' =>
      have hM : dfEq (vs.foldl mergeTwo v) (vs'.foldl mergeTwo v') := by
        have h1 : dfEq ((v :: vs).foldl mergeTwo unitDF) (vs.foldl mergeTwo v) := by
          rw [List.foldl_cons]
          exact foldl_mergeTwo_congr vs
            (mergeTwo_unit v (hk v (by simp)) (hs v (by simp)))
        have h2 : dfEq ((v' :: vs').foldl mergeTwo unitDF) (vs'.foldl mergeTwo v') := by
          rw [List.foldl_cons]
          exact foldl_mergeTwo_congr vs'
            (mergeTwo_unit v' (hk' v' (by simp)) (hs' v' (by simp)))
        have h3 : dfEq ((v :: vs).foldl mergeTwo unitDF)
            ((v' :: vs').foldl mergeTwo unitDF) :=
          foldl_mergeTwo_perm hp hd unitDF unitDF (dfEq_refl unitDF)
        exact dfEq_trans (dfEq_trans (dfEq_symm h1) h3) h2
      constructor
      · exact hM.1
      · show ((vs.foldl mergeTwo v).rows.map (fillRow (vs.foldl mergeTwo v).cols)) ~
          ((vs'.foldl mergeTwo v').rows.map (fillRow (vs'.foldl mergeTwo v').cols))
        rw [fillRow_congr (contains_congr_of_equiv hM.1)]
        exact hM.2.map _

def wRowA : MRow := fun c =>
  if c == keyId then MV.s "2330"
  else if c == keyName then MV.s "台積電"
  else if c == "A股數" then MV.n 5
  else MV.na

def wDFA : DF := ⟨[keyId, keyName, "A股數"], [wRowA]⟩

def wRowB : MRow := fun c =>
  if c == keyId then MV.s "2330"
  else if c == keyName then MV.s "台積電"
  else if c == "B股數" then MV.n 7
  else MV.na

def wDFB : DF := ⟨[keyId, keyName, "B股數"], [wRowB]⟩

theorem Supp_wDFA : Supp wDFA := by
  intro r hr c hc
  have hr2 : r = wRowA := by simpa [wDFA] using hr
  subst hr2
  have h1 : (c == keyId) = false :=
    beq_eq_false_iff_ne.2 (fun h => hc (by rw [h]; simp [wDFA]))
  have h2 : (c == keyName) = false :=
    beq_eq_false_iff_ne.2 (fun h => hc (by rw [h]; simp [wDFA]))
  have h3 : (c == "A股數") = false :=
    beq_eq_false_iff_ne.2 (fun h => hc (by rw [h]; simp [wDFA]))
  simp [wRowA, h1, h2, h3]

theorem Supp_wDFB : Supp wDFB := by
  intro r hr c hc
  have hr2 : r = wRowB := by simpa [wDFB] using hr
  subst hr2
  have h1 : (c == keyId) = false :=
    beq_eq_false_iff_ne.2 (fun h => hc (by rw [h]; simp [wDFB]))
  have h2 : (c == keyName) = false :=
    beq_eq_false_iff_ne.2 (fun h => hc (by rw [h]; simp [wDFB]))
  have h3 : (c == "B股數") = false :=
    beq_eq_false_iff_ne.2 (fun h => hc (by rw [h]; simp [wDFB]))
  simp [wRowB, h1, h2, h3]

/-- Witness for claim C6 at two concrete one-row tables. -/
theorem merge_dataframes_comm_witness :
    dfEq (merge_dataframes [wDFA, wDFB]) (merge_dataframes [wDFB, wDFA]) := by
  apply merge_dataframes_comm
  · exact List.Perm.swap wDFB wDFA []
  · intro df hdf
    have hdf2 : df = wDFA ∨ df = wDFB := by simpa using hdf
    rcases hdf2 with rfl | rfl
    · decide
    · decide
  · intro df hdf
    have hdf2 : df = wDFA ∨ df = wDFB := by simpa using hdf
    rcases hdf2 with rfl | rfl
    · exact Supp_wDFA
    · exact Supp_wDFB
  · have hA : nkCols wDFA = ["A股數"] := by decide
    have hB : nkCols wDFB = ["B股數"] := by decide
    constructor
    · intro b hb
      have hb2 : b = wDFB := by simpa using hb
      subst hb2
      intro c hcA
      rw [hA] at hcA
      have hc2 : c = "A股數" := by simpa using hcA
      subst hc2
      rw [hB]
      decide
    · constructor
      · intro b hb
        cases hb
      · constructor
